import Mathlib

/-!
Shallow embedding of the tree-tags semantic-analysis core
(src/crawler.rs and src/store.rs) and proofs about it.

Conventions:
* Rust `Vec` stacks are Lean lists with the TOP at the HEAD
  (Rust pushes/pops at the end of the vector).
* `tree_sitter::Point` is a pair of naturals with the derived
  lexicographic order.
* The sqlite tables are lists of row structures in database row order;
  `last_insert_rowid` for `local_defs` is modelled by a running counter.
* Rust `HashMap` values are association lists whose `insert` replaces
  the value of an existing key in place (value-faithful; the iteration
  order used when flushing hoisted definitions is determinized to
  first-insertion order, which only affects row order of the flushed
  rows, not which ids resolve to which names).
* Panicking `unwrap` calls are modelled with `Except Panic`.
-/

namespace TreeTags

/-- `tree_sitter::Point`: zero-based row and column. -/
structure Point where
  row : Nat
  column : Nat
deriving DecidableEq, Repr

/-- The derived lexicographic strict order on `Point`
(`local_def.1 > local_ref.1` in `pop_scope` is `Point.lt ref def`). -/
def Point.lt (a b : Point) : Bool :=
  a.row < b.row || (a.row == b.row && a.column < b.column)

/-- Property bag of a syntax-tree node: string key / string value pairs. -/
def Props := List (String × String)

/-- `TreePropertyCursor::node_properties().get(prop)`. -/
def get_property (props : Props) (p : String) : Option String :=
  List.lookup p props

/-- `TreeCrawler::has_property`. -/
def has_property (props : Props) (p : String) : Bool :=
  (get_property props p).isSome

/-- `TreeCrawler::has_property_value`. -/
def has_property_value (props : Props) (p v : String) : Bool :=
  get_property props p == some v

/-! ## Store rows (src/store.rs, schema from the spec's §6) -/

/-- A row of the `files` table. -/
structure FileRow where
  id : Nat
  path : String
deriving DecidableEq, Repr

/-- A row of the `local_defs` table. -/
structure LocalDefRow where
  id : Nat
  fileId : Nat
  row : Nat
  column : Nat
  length : Nat
deriving DecidableEq, Repr

/-- A row of the `local_refs` table. -/
structure LocalRefRow where
  fileId : Nat
  definitionId : Nat
  row : Nat
  column : Nat
  length : Nat
deriving DecidableEq, Repr

/-- A row of the `refs` table. -/
structure RefRow where
  fileId : Nat
  name : String
  row : Nat
  column : Nat
  kind : Option String
deriving DecidableEq, Repr

/-- A row of the `defs` table. -/
structure DefRow where
  fileId : Nat
  startRow : Nat
  startColumn : Nat
  endRow : Nat
  endColumn : Nat
  name : String
  nameStartRow : Nat
  nameStartColumn : Nat
  kind : Option String
  modulePath : String
deriving DecidableEq, Repr

/-- The whole store: one sqlite database.
`nextFileId` / `nextLocalDefId` model the rowid allocators. -/
structure StoreDB where
  nextFileId : Nat
  nextLocalDefId : Nat
  files : List FileRow
  local_defs : List LocalDefRow
  local_refs : List LocalRefRow
  refs : List RefRow
  defs : List DefRow
deriving DecidableEq, Repr

/-- `store::StoreFile`: an open per-file transaction (`file_id` plus the
database handle). -/
structure StoreFile where
  fileId : Nat
  db : StoreDB
deriving DecidableEq, Repr

/-- `StoreFile::insert_local_def`: inserts `(file_id, row, column, length)`
with `length` the UTF-8 byte length of the name, and returns
`last_insert_rowid`. -/
def StoreFile.insert_local_def (sf : StoreFile) (name : String) (position : Point) :
    StoreFile × Nat :=
  let id := sf.db.nextLocalDefId
  ({ sf with db := { sf.db with
        nextLocalDefId := id + 1,
        local_defs := sf.db.local_defs ++
          [⟨id, sf.fileId, position.row, position.column, name.utf8ByteSize⟩] } },
   id)

/-- `StoreFile::insert_local_ref`. -/
def StoreFile.insert_local_ref (sf : StoreFile) (localDefId : Nat) (name : String)
    (position : Point) : StoreFile :=
  { sf with db := { sf.db with
      local_refs := sf.db.local_refs ++
        [⟨sf.fileId, localDefId, position.row, position.column, name.utf8ByteSize⟩] } }

/-- `StoreFile::insert_ref`. -/
def StoreFile.insert_ref (sf : StoreFile) (name : String) (position : Point)
    (kind : Option String) : StoreFile :=
  { sf with db := { sf.db with
      refs := sf.db.refs ++ [⟨sf.fileId, name, position.row, position.column, kind⟩] } }

/-- The `module_path` serialization loop in `StoreFile::insert_def`:
`for entry in module_path { s += entry; s += "\t" }`. -/
def serializeModulePath (modulePath : List String) : String :=
  modulePath.foldl (fun acc entry => acc ++ entry ++ "\t") ""

/-- `StoreFile::insert_def`. -/
def StoreFile.insert_def (sf : StoreFile) (name : String) (namePosition : Point)
    (startPosition endPosition : Point) (kind : Option String)
    (modulePath : List String) : StoreFile :=
  { sf with db := { sf.db with
      defs := sf.db.defs ++
        [⟨sf.fileId, startPosition.row, startPosition.column,
          endPosition.row, endPosition.column,
          name, namePosition.row, namePosition.column, kind,
          serializeModulePath modulePath⟩] } }

/-! ## Crawler transient state (src/crawler.rs) -/

/-- `crawler::Scope`. `hoisted_local_defs` is a `HashMap<&str, Point>`,
modelled as an association list with replacing insert. -/
structure Scope where
  kind : Option String
  local_refs : List (String × Point)
  local_defs : List (String × Point)
  hoisted_local_defs : List (String × Point)
deriving DecidableEq, Repr

/-- `crawler::Definition` (a pending or completed global definition). -/
structure Definition where
  name : Option (String × Point)
  kind : Option String
  start_position : Point
  end_position : Point
deriving DecidableEq, Repr

/-- `crawler::Module`. -/
structure Module where
  name : Option String
  definitions : List Definition
  pending_definition_stack : List Definition
deriving DecidableEq, Repr

/-- `HashMap::insert`: replaces the value of an existing key (keeping its
place), otherwise appends the new key. -/
def hoistInsert (m : List (String × Point)) (k : String) (v : Point) :
    List (String × Point) :=
  match m with
  | [] => [(k, v)]
  | (k2, v2) :: rest =>
    if k2 == k then (k2, v) :: rest else (k2, v2) :: hoistInsert rest k v

/-- The walker state: the open store transaction plus the two stacks
(`scope_stack`, `module_stack`), top of stack at the head. -/
structure CrawlState where
  store : StoreFile
  scope_stack : List Scope
  module_stack : List Module
deriving DecidableEq, Repr

/-- The sites of the `unwrap` calls in the crawler that can panic. -/
inductive Panic where
  | topScope
  | topModule
  | topDefinition
  | popScope
  | popDefinition
  | popModule
deriving DecidableEq, Repr

/-- `TreeCrawler::top_scope` as a modification of the target scope:
scan from the top of the stack; a scope is the target if it is the
bottom scope (`i == 0`) or the requested kind is absent or equal to the
scope's kind. `none` models the `unwrap` panic on an empty stack. -/
def modifyTargetScope (stack : List Scope) (kind : Option String)
    (f : Scope → Scope) : Option (List Scope) :=
  match stack with
  | [] => none
  | [s] => some [f s]
  | s :: rest =>
    if (match kind with
        | none => true
        | some k => s.kind == some k) then
      some (f s :: rest)
    else
      (modifyTargetScope rest kind f).map (s :: ·)

/-- A fresh scope (`TreeCrawler::push_scope`). -/
def Scope.fresh (kind : Option String) : Scope :=
  ⟨kind, [], [], []⟩

/-- A fresh module (`TreeCrawler::push_module`). -/
def Module.fresh : Module :=
  ⟨none, [], []⟩

/-- `enter_node`, first block (crawler.rs:100-115): record a local
definition into its target scope, hoisted or not. -/
def enterLocalDef (props : Props) (text : String) (startPos : Point)
    (s : CrawlState) : Except Panic CrawlState :=
  if has_property_value props "local-definition" "true" then
    let scopeType := get_property props "scope-type"
    let isHoisted := has_property props "local-is-hoisted"
    match modifyTargetScope s.scope_stack scopeType (fun sc =>
      if isHoisted then
        { sc with hoisted_local_defs := hoistInsert sc.hoisted_local_defs text startPos }
      else
        { sc with local_defs := sc.local_defs ++ [(text, startPos)] }) with
    | some st => Except.ok { s with scope_stack := st }
    | none => throw Panic.topScope
  else Except.ok s

/-- `enter_node`, second block (crawler.rs:117-123): record a local
reference, unless the node is also a local definition. -/
def enterLocalRef (props : Props) (text : String) (startPos : Point)
    (s : CrawlState) : Except Panic CrawlState :=
  if has_property_value props "local-reference" "true" &&
      !has_property_value props "local-definition" "true" then
    match modifyTargetScope s.scope_stack (get_property props "scope-type") (fun sc =>
      { sc with local_refs := sc.local_refs ++ [(text, startPos)] }) with
    | some st => Except.ok { s with scope_stack := st }
    | none => throw Panic.topScope
  else Except.ok s

/-- `enter_node`, third block (crawler.rs:125-127): push a scope. -/
def enterScope (props : Props) (s : CrawlState) : CrawlState :=
  if has_property_value props "local-scope" "true" then
    { s with scope_stack := Scope.fresh (get_property props "scope-type") :: s.scope_stack }
  else s

/-- `enter_node`, fourth block (crawler.rs:129-131): push a module. -/
def enterModule (props : Props) (s : CrawlState) : CrawlState :=
  if has_property_value props "module" "true" then
    { s with module_stack := Module.fresh :: s.module_stack }
  else s

/-- `enter_node`, fifth block (crawler.rs:133-141): set the top module's
name (overwriting whatever it was). -/
def enterModulePart (props : Props) (text : String) (s : CrawlState) :
    Except Panic CrawlState :=
  if get_property props "module-part" == some "name" then
    match s.module_stack with
    | [] => throw Panic.topModule
    | m :: rest =>
      Except.ok { s with module_stack := { m with name := some text } :: rest }
  else Except.ok s

/-- `enter_node`, sixth block (crawler.rs:143-151): push a pending
definition onto the top module. -/
def enterDefinition (props : Props) (startPos endPos : Point) (s : CrawlState) :
    Except Panic CrawlState :=
  if has_property_value props "definition" "true" then
    let kind := get_property props "definition-type"
    match s.module_stack with
    | [] => throw Panic.topModule
    | m :: rest =>
      Except.ok { s with module_stack :=
        { m with pending_definition_stack :=
            ⟨none, kind, startPos, endPos⟩ :: m.pending_definition_stack } :: rest }
  else Except.ok s

/-- `enter_node`, seventh block (crawler.rs:153-166): set the top pending
definition's name, or its kind from a value child. -/
def enterDefinitionPart (props : Props) (text : String) (startPos : Point)
    (s : CrawlState) : Except Panic CrawlState :=
  match get_property props "definition-part" with
  | some "name" =>
    match s.module_stack with
    | [] => throw Panic.topModule
    | m :: rest =>
      match m.pending_definition_stack with
      | [] => throw Panic.topDefinition
      | d :: ds =>
        Except.ok { s with module_stack :=
          { m with pending_definition_stack :=
              { d with name := some (text, startPos) } :: ds } :: rest }
  | some "value" =>
    let kind := get_property props "definition-type"
    if kind.isSome then
      match s.module_stack with
      | [] => throw Panic.topModule
      | m :: rest =>
        match m.pending_definition_stack with
        | [] => throw Panic.topDefinition
        | d :: ds =>
          Except.ok { s with module_stack :=
            { m with pending_definition_stack :=
                { d with kind := kind } :: ds } :: rest }
    else Except.ok s
  | _ => Except.ok s

/-- `enter_node`, eighth block (crawler.rs:168-176): emit a global
reference immediately. -/
def enterReference (props : Props) (text : String) (startPos : Point)
    (s : CrawlState) : CrawlState :=
  if has_property_value props "reference" "true" then
    { s with store := s.store.insert_ref text startPos (get_property props "reference-type") }
  else s

/-- `TreeCrawler::enter_node`, for a node with property bag `props`,
text `text` and start/end positions: the eight blocks in source order. -/
def enter_node (props : Props) (text : String) (startPos endPos : Point)
    (s : CrawlState) : Except Panic CrawlState := do
  let s ← enterLocalDef props text startPos s
  let s ← enterLocalRef props text startPos s
  let s := enterScope props s
  let s := enterModule props s
  let s ← enterModulePart props text s
  let s ← enterDefinition props startPos endPos s
  let s ← enterDefinitionPart props text startPos s
  pure (enterReference props text startPos s)

/-- The resolution loop body in `pop_scope`: scan the non-hoisted local
defs (paired with their persisted ids) from oldest to newest, breaking
at the first whose position is strictly greater than the ref's;
a matching name overwrites the accumulator. -/
def scanLocalDefs (defs : List ((String × Point) × Nat)) (ref : String × Point)
    (acc : Option Nat) : Option Nat :=
  match defs with
  | [] => acc
  | (d, id) :: rest =>
    if Point.lt ref.2 d.2 then acc
    else scanLocalDefs rest ref (if d.1 == ref.1 then some id else acc)

/-- Processing of one local ref in `pop_scope`: non-hoisted scan, then
hoisted-map lookup, then either persist the ref, push it to the parent
scope, or (no parent) drop it. -/
def processRef (defsWithIds : List ((String × Point) × Nat))
    (hoistedIds : List (String × Nat)) (sf : StoreFile) (parent : Option Scope)
    (r : String × Point) : StoreFile × Option Scope :=
  let localDefId :=
    match scanLocalDefs defsWithIds r none with
    | some id => some id
    | none => List.lookup r.1 hoistedIds
  match localDefId with
  | some id => (sf.insert_local_ref id r.1 r.2, parent)
  | none =>
    match parent with
    | some p => (sf, some { p with local_refs := p.local_refs ++ [r] })
    | none => (sf, none)

/-- The body of the first flush loop in `pop_scope` (crawler.rs:231-234):
insert one non-hoisted local def and record its id. -/
def flushDefStep (acc : StoreFile × List Nat) (d : String × Point) :
    StoreFile × List Nat :=
  let r := acc.1.insert_local_def d.1 d.2
  (r.1, acc.2 ++ [r.2])

/-- The body of the second flush loop in `pop_scope` (crawler.rs:236-239):
insert one hoisted local def and record `name → id`. -/
def flushHoistStep (acc : StoreFile × List (String × Nat)) (d : String × Point) :
    StoreFile × List (String × Nat) :=
  let r := acc.1.insert_local_def d.1 d.2
  (r.1, acc.2 ++ [(d.1, r.2)])

/-- The body of the resolution loop in `pop_scope` (crawler.rs:242-264). -/
def resolveStep (dIds : List ((String × Point) × Nat))
    (hIds : List (String × Nat)) (acc : StoreFile × Option Scope)
    (r : String × Point) : StoreFile × Option Scope :=
  processRef dIds hIds acc.1 acc.2 r

/-- `TreeCrawler::pop_scope`. -/
def pop_scope (s : CrawlState) : Except Panic CrawlState :=
  match s.scope_stack with
  | [] => throw Panic.popScope
  | scope :: rest =>
    let flushed := scope.local_defs.foldl flushDefStep (s.store, [])
    let defsWithIds := scope.local_defs.zip flushed.2
    let hoistFlushed := scope.hoisted_local_defs.foldl flushHoistStep (flushed.1, [])
    let resolved := scope.local_refs.foldl
      (resolveStep defsWithIds hoistFlushed.2) (hoistFlushed.1, rest.head?)
    let newStack :=
      match resolved.2 with
      | some p => p :: rest.tail
      | none => rest.tail
    Except.ok { s with store := resolved.1, scope_stack := newStack }

/-- `TreeCrawler::pop_definition`. -/
def pop_definition (s : CrawlState) : Except Panic CrawlState :=
  match s.module_stack with
  | [] => throw Panic.popDefinition
  | m :: rest =>
    match m.pending_definition_stack with
    | [] => throw Panic.popDefinition
    | d :: ds =>
      Except.ok { s with module_stack :=
        { m with pending_definition_stack := ds,
                 definitions := m.definitions ++ [d] } :: rest }

/-- `TreeCrawler::pop_module`: the module path is computed from the whole
module stack, bottom (outermost) to top (the module about to be popped),
keeping only modules with a name; then the popped module's completed
named definitions are inserted. -/
def pop_module (s : CrawlState) : Except Panic CrawlState :=
  let modPath := s.module_stack.reverse.filterMap (·.name)
  match s.module_stack with
  | [] => throw Panic.popModule
  | m :: rest =>
    let store := m.definitions.foldl
      (fun sf d =>
        match d.name with
        | some np =>
          sf.insert_def np.1 np.2 d.start_position d.end_position d.kind modPath
        | none => sf)
      s.store
    Except.ok { s with store := store, module_stack := rest }

/-- `leave_node`, first if (crawler.rs:182-184). -/
def leaveScope (props : Props) (s : CrawlState) : Except Panic CrawlState :=
  if has_property props "local-scope" then pop_scope s else Except.ok s

/-- `leave_node`, second if (crawler.rs:186-188). -/
def leaveDefinition (props : Props) (s : CrawlState) : Except Panic CrawlState :=
  if has_property props "definition" then pop_definition s else Except.ok s

/-- `leave_node`, third if (crawler.rs:190-192). -/
def leaveModule (props : Props) (s : CrawlState) : Except Panic CrawlState :=
  if has_property props "module" then pop_module s else Except.ok s

/-- `TreeCrawler::leave_node`: pops keyed on property PRESENCE only. -/
def leave_node (props : Props) (s : CrawlState) : Except Panic CrawlState := do
  let s ← leaveScope props s
  let s ← leaveDefinition props s
  leaveModule props s

/-! ## The tree walk (crawl_tree's cursor loop) -/

/-- A syntax-tree node with its matched property bag, text and extent. -/
inductive PTree where
  | node (props : Props) (text : String) (startPos endPos : Point)
      (children : List PTree)

def PTree.props : PTree → Props
  | .node props _ _ _ _ => props

def PTree.children : PTree → List PTree
  | .node _ _ _ _ cs => cs

mutual

/-- One node of the cursor loop in `crawl_tree`: the cursor enters every
node it moves onto, descends into the children, and calls `leave_node`
only when `goto_parent` returns to this node — i.e. only when the node
has at least one child. Leaf nodes are entered but never left. -/
def visit : PTree → CrawlState → Except Panic CrawlState
  | .node props text sp ep children, s => do
    let s ← enter_node props text sp ep s
    match children with
    | [] => pure s
    | c :: cs => do
      let s ← visit c s
      let s ← visitList cs s
      leave_node props s

/-- Visit a list of siblings in order (`goto_next_sibling`). -/
def visitList : List PTree → CrawlState → Except Panic CrawlState
  | [], s => pure s
  | t :: ts, s => do
    let s ← visit t s
    visitList ts s

end

/-- `TreeCrawler::crawl_tree`: push the file scope and file module, run
the cursor loop from the root (the root node is never entered; it is
left — with its own property bag — exactly when it has children), then
pop the file module and file scope. -/
def crawl_tree (store : StoreFile) (root : PTree) : Except Panic CrawlState := do
  let s : CrawlState :=
    { store := store, scope_stack := [Scope.fresh none], module_stack := [Module.fresh] }
  let s ←
    match root with
    | .node _ _ _ _ [] => pure s
    | .node props _ _ _ (c :: cs) => do
      let s ← visit c s
      let s ← visitList cs s
      leave_node props s
  let s ← pop_module s
  pop_scope s

/-! ## Store queries (src/store.rs) -/

/-- `rusqlite::Error::QueryReturnedNoRows`, surfaced by `find_definition`
when `path` has no `files` row (the spec's `NotIndexed`). -/
inductive QueryError where
  | NotIndexed
deriving DecidableEq, Repr

/-- `SELECT id FROM files WHERE path = ?1` via `query_row` (first row by
database row order; `files.path` is UNIQUE so at most one row matches). -/
def files_lookup (db : StoreDB) (path : String) : Option Nat :=
  (db.files.find? (fun f => f.path == path)).map (·.id)

/-- The local-stage covering predicate of `find_definition`:
`row = ?2 AND column <= ?3 AND column + length > ?3` for file `?1`. -/
def coversLocalRef (lr : LocalRefRow) (fid : Nat) (pos : Point) : Bool :=
  lr.fileId == fid && lr.row == pos.row && lr.column ≤ pos.column &&
    pos.column < lr.column + lr.length

/-- The local stage of `find_definition`: the first row (local refs in
database row order, each joined to its LocalDefinition) of the two-table
join, returning the definition's position and length. -/
def local_stage (db : StoreDB) (fid : Nat) (pos : Point) : Option (Point × Nat) :=
  db.local_refs.findSome? (fun lr =>
    if coversLocalRef lr fid pos then
      (db.local_defs.find? (fun ld => ld.id == lr.definitionId)).map
        (fun ld => (Point.mk ld.row ld.column, ld.length))
    else none)

/-- The global-stage covering predicate: same shape with
`length(refs.name)`; sqlite `length()` on text counts characters. -/
def coversRef (r : RefRow) (fid : Nat) (pos : Point) : Bool :=
  r.fileId == fid && r.row == pos.row && r.column ≤ pos.column &&
    pos.column < r.column + r.name.length

/-- The global stage of `find_definition`: join covering global refs of
the queried file to all same-name defs and their files, `LIMIT 50`.
The SQL leaves the row order unspecified; nested loops in `FROM` order
is the determinization used here. -/
def global_stage (db : StoreDB) (fid : Nat) (pos : Point) :
    List (String × Point × Nat) :=
  (db.refs.flatMap (fun r =>
    if coversRef r fid pos then
      db.defs.flatMap (fun d =>
        if d.name == r.name then
          db.files.filterMap (fun fr =>
            if fr.id == d.fileId then
              some (fr.path, Point.mk d.nameStartRow d.nameStartColumn, d.name.length)
            else none)
        else [])
    else [])).take 50

/-- `Store::find_definition`: file lookup (error when absent), then the
local stage (at most one row), then the global stage. -/
def find_definition (db : StoreDB) (path : String) (pos : Point) :
    Except QueryError (List (String × Point × Nat)) :=
  match files_lookup db path with
  | none => Except.error QueryError.NotIndexed
  | some fid =>
    match local_stage db fid pos with
    | some (p, len) => Except.ok [(path, p, len)]
    | none => Except.ok (global_stage db fid pos)

/-! ## The per-file pipeline (DirCrawler::crawl_file / crawl_path) -/

/-- `crawler::Error`'s three kinds (`Error::IO`, `Error::Ignore`,
`Error::SQL`). -/
inductive CrawlError where
  | ioFailure
  | ignoreFailure
  | sqlFailure
deriving DecidableEq, Repr

/-- A continuation byte: `0x80..=0xBF`. -/
def isUtf8Cont (b : Nat) : Bool := 0x80 ≤ b && b ≤ 0xBF

/-- The UTF-8 validity check performed by Rust's `read_to_string`
(`str::from_utf8`, RFC 3629: no overlongs, no surrogates, max U+10FFFF),
over the file's bytes. -/
def validUtf8 : List Nat → Bool
  | [] => true
  | b :: rest =>
    if b ≤ 0x7F then validUtf8 rest
    else if 0xC2 ≤ b && b ≤ 0xDF then
      match rest with
      | c1 :: r => isUtf8Cont c1 && validUtf8 r
      | _ => false
    else if b == 0xE0 then
      match rest with
      | c1 :: c2 :: r => (0xA0 ≤ c1 && c1 ≤ 0xBF) && isUtf8Cont c2 && validUtf8 r
      | _ => false
    else if (0xE1 ≤ b && b ≤ 0xEC) || b == 0xEE || b == 0xEF then
      match rest with
      | c1 :: c2 :: r => isUtf8Cont c1 && isUtf8Cont c2 && validUtf8 r
      | _ => false
    else if b == 0xED then
      match rest with
      | c1 :: c2 :: r => (0x80 ≤ c1 && c1 ≤ 0x9F) && isUtf8Cont c2 && validUtf8 r
      | _ => false
    else if b == 0xF0 then
      match rest with
      | c1 :: c2 :: c3 :: r =>
        (0x90 ≤ c1 && c1 ≤ 0xBF) && isUtf8Cont c2 && isUtf8Cont c3 && validUtf8 r
      | _ => false
    else if 0xF1 ≤ b && b ≤ 0xF3 then
      match rest with
      | c1 :: c2 :: c3 :: r =>
        isUtf8Cont c1 && isUtf8Cont c2 && isUtf8Cont c3 && validUtf8 r
      | _ => false
    else if b == 0xF4 then
      match rest with
      | c1 :: c2 :: c3 :: r =>
        (0x80 ≤ c1 && c1 ≤ 0x8F) && isUtf8Cont c2 && isUtf8Cont c3 && validUtf8 r
      | _ => false
    else false

/-- A file yielded by the external directory walker: path, extension
(as in `path.extension()`), raw byte contents. -/
structure SourceFile where
  path : String
  extension : Option String
  contents : List Nat

/-- `Store::file` (store.rs:40-50): within a transaction, delete any
existing `files` row for `path`, insert a new one, and return a handle
carrying the new file id. Modelled from the spec: `schema.sql` is not
under src; spec §3 invariant 3 requires that no stale fact rows remain
for the deleted id, so the delete cascades to the fact tables here. -/
def Store.file (db : StoreDB) (path : String) : StoreFile :=
  let oldIds := db.files.filterMap
    (fun fr => if fr.path == path then some fr.id else none)
  let fid := db.nextFileId
  { fileId := fid,
    db := { db with
      nextFileId := fid + 1,
      files := db.files.filter (fun fr => fr.path != path) ++ [⟨fid, path⟩],
      local_defs := db.local_defs.filter (fun r => !oldIds.contains r.fileId),
      local_refs := db.local_refs.filter (fun r => !oldIds.contains r.fileId),
      refs := db.refs.filter (fun r => !oldIds.contains r.fileId),
      defs := db.defs.filter (fun r => !oldIds.contains r.fileId) } }

/-- `DirCrawler::crawl_file`. `language_for_extension` abstracts the
registry (`none`-like result modelled as `false`: skip silently) and
`parse` abstracts the tree-sitter parser, which succeeds on any input.
A panic during the walk is the outer error; a `crawler::Error` is the
inner one. The UTF-8 check of `read_to_string` runs BEFORE the store
transaction is opened, so a non-UTF-8 file records no facts. -/
def crawl_file (language_for_extension : String → Bool)
    (parse : List Nat → PTree) (db : StoreDB) (f : SourceFile) :
    Except Panic (Except CrawlError StoreDB) :=
  match f.extension with
  | none => Except.ok (Except.ok db)
  | some ext =>
    if language_for_extension ext then
      if validUtf8 f.contents then
        match crawl_tree (Store.file db f.path) (parse f.contents) with
        | Except.error p => Except.error p
        | Except.ok s => Except.ok (Except.ok s.store.db)
      else Except.ok (Except.error CrawlError.ioFailure)
    else Except.ok (Except.ok db)

/-- `DirCrawler::crawl_path`, determinized to one worker processing the
walker's files in order: a per-file error sets the last-error slot and
the worker returns `WalkState::Quit`, so the remaining files are not
processed and the error is surfaced. -/
def crawl_path (language_for_extension : String → Bool)
    (parse : List Nat → PTree) (db : StoreDB) :
    List SourceFile → Except Panic (Except CrawlError StoreDB)
  | [] => Except.ok (Except.ok db)
  | f :: fs =>
    match crawl_file language_for_extension parse db f with
    | Except.error p => Except.error p
    | Except.ok (Except.error e) => Except.ok (Except.error e)
    | Except.ok (Except.ok db') => crawl_path language_for_extension parse db' fs

/-! ## Shared example data -/

/-- A store handle over a store with one indexed file (id 1). -/
def exampleStore : StoreFile :=
  ⟨1, ⟨2, 0, [⟨1, "f"⟩], [], [], [], []⟩⟩

/-! ## C1: resolution among a scope's non-hoisted local definitions -/

/-- The claim's reading of the resolution rule: scan the defs oldest to
newest, stopping before the first whose start position is strictly
greater than the ref's; among the scanned defs with the ref's name, the
most recent one wins. -/
def chooseLocalDefSpec (defs : List ((String × Point) × Nat))
    (ref : String × Point) : Option Nat :=
  (((defs.takeWhile fun d => !Point.lt ref.2 d.1.2).filter
      fun d => d.1.1 == ref.1).getLast?).map (·.2)

theorem getLast?_cons_or {α : Type} (a : α) (l : List α) :
    (a :: l).getLast? = (l.getLast?).or (some a) := by
  cases l with
  | nil => rfl
  | cons b t =>
    rw [List.getLast?_cons_cons]
    have h : (b :: t).getLast?.isSome := by
      rw [List.getLast?_isSome]
      simp
    obtain ⟨x, hx⟩ := Option.isSome_iff_exists.mp h
    rw [hx]
    rfl

theorem option_map_or {α β : Type} (f : α → β) (a b : Option α) :
    Option.map f (a.or b) = (a.map f).or (b.map f) := by
  cases a <;> rfl

theorem option_or_assoc {α : Type} (a b c : Option α) :
    (a.or b).or c = a.or (b.or c) := by
  cases a <;> rfl

theorem scanLocalDefs_or (defs : List ((String × Point) × Nat))
    (ref : String × Point) :
    ∀ acc, scanLocalDefs defs ref acc = (chooseLocalDefSpec defs ref).or acc := by
  induction defs with
  | nil => intro acc; rfl
  | cons d rest ih =>
    intro acc
    obtain ⟨⟨dn, dp⟩, did⟩ := d
    cases hp : Point.lt ref.2 dp with
    | true =>
      simp only [scanLocalDefs, hp, if_pos, chooseLocalDefSpec,
        List.takeWhile_cons, Bool.not_true, Bool.false_eq_true, if_false,
        List.filter_nil, List.getLast?_nil]
      rfl
    | false =>
      cases hn : (dn == ref.1) with
      | true =>
        simp only [scanLocalDefs, hp, Bool.false_eq_true, if_false, hn,
          if_pos, chooseLocalDefSpec, List.takeWhile_cons, Bool.not_false,
          if_true, List.filter_cons, getLast?_cons_or, option_map_or,
          option_or_assoc]
        rw [ih (some did)]
        rfl
      | false =>
        simp only [scanLocalDefs, hp, Bool.false_eq_true, if_false, hn,
          chooseLocalDefSpec, List.takeWhile_cons, Bool.not_false, if_true,
          List.filter_cons]
        exact ih acc

/-- C1: for every scope popped by the walker, each local reference is
resolved by scanning the scope's non-hoisted local defs from oldest to
newest, stopping before the first def whose start position is strictly
greater than the ref's position, and taking the most recent scanned def
whose name matches (shadowing); position comparison is lexicographic on
(row, column). -/
theorem C1_local_resolution :
    (∀ (defs : List ((String × Point) × Nat)) (ref : String × Point),
        scanLocalDefs defs ref none = chooseLocalDefSpec defs ref)
    ∧ (∀ a b : Point, Point.lt a b = true ↔
        (a.row < b.row ∨ (a.row = b.row ∧ a.column < b.column))) := by
  constructor
  · intro defs ref
    rw [scanLocalDefs_or]
    cases chooseLocalDefSpec defs ref <;> rfl
  · intro a b
    simp [Point.lt]

/-- C1 witness: the spec's shadowing example — defs of `x` at (0,4) and
(0,20), a def of `y`, and a later def of `x` at (0,30) past the ref at
(0,26); the ref resolves to the def at (0,20) (id 1). -/
theorem C1_witness :
    scanLocalDefs [(("x", ⟨0, 4⟩), 0), (("x", ⟨0, 20⟩), 1),
      (("y", ⟨0, 22⟩), 2), (("x", ⟨0, 30⟩), 3)] ("x", ⟨0, 26⟩) none = some 1 :=
  (C1_local_resolution.1 _ _).trans (by decide)

/-! ## C4: two hoisted local definitions with the same name -/

/-- The property bag of a hoisted local definition. -/
def hoistProps : Props :=
  [("local-definition", "true"), ("local-is-hoisted", "true")]

theorem modifyTargetScope_none (sc : Scope) (rest : List Scope)
    (f : Scope → Scope) :
    modifyTargetScope (sc :: rest) none f = some (f sc :: rest) := by
  cases rest <;> rfl

theorem lookup_hoistInsert (m : List (String × Point)) (k : String) (v : Point) :
    List.lookup k (hoistInsert m k v) = some v := by
  induction m with
  | nil => simp [hoistInsert, List.lookup]
  | cons e rest ih =>
    obtain ⟨k2, v2⟩ := e
    cases h : (k2 == k) with
    | true =>
      have hk : (k == k2) = true := beq_iff_eq.mpr (beq_iff_eq.mp h).symm
      simp [hoistInsert, h, List.lookup, hk]
    | false =>
      have hk : (k == k2) = false := by
        cases hkk : (k == k2) with
        | false => rfl
        | true =>
          have := beq_iff_eq.mpr (beq_iff_eq.mp hkk).symm
          rw [h] at this
          exact this.symm
      simp [hoistInsert, h, List.lookup, hk, ih]

/-! Computation lemmas for `enter_node` blocks, used to evaluate the
walker on nodes with a known property bag but a symbolic state. -/

theorem bind_ok {α β : Type} (a : α) (f : α → Except Panic β) :
    (Except.ok a : Except Panic α) >>= f = f a := rfl

theorem enterLocalDef_skip (props : Props) (n : String) (p : Point)
    (h : has_property_value props "local-definition" "true" = false)
    (s : CrawlState) :
    enterLocalDef props n p s = Except.ok s := by
  unfold enterLocalDef
  rw [h]
  rfl

theorem enterLocalDef_hoisted (props : Props) (n : String) (p : Point)
    (s : CrawlState) (sc : Scope) (rest : List Scope)
    (h1 : has_property_value props "local-definition" "true" = true)
    (h2 : has_property props "local-is-hoisted" = true)
    (h3 : get_property props "scope-type" = none)
    (hs : s.scope_stack = sc :: rest) :
    enterLocalDef props n p s = Except.ok { s with scope_stack :=
      { sc with hoisted_local_defs := hoistInsert sc.hoisted_local_defs n p }
        :: rest } := by
  unfold enterLocalDef
  simp only [h1, h2, h3, hs, if_true, modifyTargetScope_none, reduceIte]

theorem enterLocalRef_skip (props : Props) (n : String) (p : Point)
    (h : (has_property_value props "local-reference" "true" &&
          !has_property_value props "local-definition" "true") = false)
    (s : CrawlState) :
    enterLocalRef props n p s = Except.ok s := by
  unfold enterLocalRef
  rw [h]
  rfl

theorem enterScope_skip (props : Props)
    (h : has_property_value props "local-scope" "true" = false)
    (s : CrawlState) :
    enterScope props s = s := by
  unfold enterScope
  rw [h]
  rfl

theorem enterModule_skip (props : Props)
    (h : has_property_value props "module" "true" = false)
    (s : CrawlState) :
    enterModule props s = s := by
  unfold enterModule
  rw [h]
  rfl

theorem enterModulePart_skip (props : Props) (n : String)
    (h : (get_property props "module-part" == some "name") = false)
    (s : CrawlState) :
    enterModulePart props n s = Except.ok s := by
  unfold enterModulePart
  rw [h]
  rfl

theorem enterModulePart_set (props : Props) (n : String) (s : CrawlState)
    (m : Module) (mrest : List Module)
    (h : (get_property props "module-part" == some "name") = true)
    (hm : s.module_stack = m :: mrest) :
    enterModulePart props n s = Except.ok { s with module_stack :=
      { m with name := some n } :: mrest } := by
  unfold enterModulePart
  simp only [h, hm, if_true, reduceIte]

theorem enterDefinition_skip (props : Props) (p ep : Point)
    (h : has_property_value props "definition" "true" = false)
    (s : CrawlState) :
    enterDefinition props p ep s = Except.ok s := by
  unfold enterDefinition
  rw [h]
  rfl

theorem enterDefinitionPart_skip (props : Props) (n : String) (p : Point)
    (h : get_property props "definition-part" = none)
    (s : CrawlState) :
    enterDefinitionPart props n p s = Except.ok s := by
  unfold enterDefinitionPart
  rw [h]

theorem enterReference_skip (props : Props) (n : String) (p : Point)
    (h : has_property_value props "reference" "true" = false)
    (s : CrawlState) :
    enterReference props n p s = s := by
  unfold enterReference
  rw [h]
  rfl

/-- Entering a hoisted local definition node inserts `(text → position)`
into the innermost scope's hoisted map, replacing any previous entry. -/
theorem enter_node_hoisted (n : String) (p ep : Point) (s : CrawlState)
    (sc : Scope) (rest : List Scope) (h : s.scope_stack = sc :: rest) :
    enter_node hoistProps n p ep s = Except.ok { s with scope_stack :=
      { sc with hoisted_local_defs := hoistInsert sc.hoisted_local_defs n p }
        :: rest } := by
  unfold enter_node
  simp only [enterLocalDef_hoisted hoistProps n p s sc rest rfl rfl rfl h,
    enterLocalRef_skip hoistProps n p rfl, enterScope_skip hoistProps rfl,
    enterModule_skip hoistProps rfl, enterModulePart_skip hoistProps n rfl,
    enterDefinition_skip hoistProps p ep rfl,
    enterDefinitionPart_skip hoistProps n p rfl,
    enterReference_skip hoistProps n p rfl, bind_ok]
  rfl

/-- C4 (amended): when two hoisted local definitions with the same name
target the same scope, the LAST writer's position is kept: after the
walker records hoisted defs of name `n` at `p1` and then at `p2` into
the same scope, the scope's hoisted map sends `n` to `p2`. -/
theorem C4_last_writer_wins (n : String) (p1 p2 ep1 ep2 : Point)
    (s : CrawlState) (sc : Scope) (rest : List Scope)
    (h : s.scope_stack = sc :: rest) :
    ∃ sc2 : Scope,
      (enter_node hoistProps n p1 ep1 s >>= enter_node hoistProps n p2 ep2)
          = Except.ok { s with scope_stack := sc2 :: rest }
        ∧ List.lookup n sc2.hoisted_local_defs = some p2 := by
  have e1 := enter_node_hoisted n p1 ep1 s sc rest h
  have e2 := enter_node_hoisted n p2 ep2
    { s with scope_stack :=
        { sc with hoisted_local_defs := hoistInsert sc.hoisted_local_defs n p1 } :: rest }
    { sc with hoisted_local_defs := hoistInsert sc.hoisted_local_defs n p1 }
    rest rfl
  refine ⟨{ sc with hoisted_local_defs := hoistInsert (hoistInsert sc.hoisted_local_defs n p1) n p2 }, ?_, ?_⟩
  · rw [e1, bind_ok, e2]
  · exact lookup_hoistInsert _ n p2

/-- C4 witness: with an empty hoisted map, recording `x` at (0,0) then
at (0,5) leaves the map sending `x` to (0,5). -/
theorem C4_witness :
    ∃ sc2 : Scope,
      (enter_node hoistProps "x" ⟨0, 0⟩ ⟨0, 1⟩
          ⟨exampleStore, [Scope.fresh none], [Module.fresh]⟩
        >>= enter_node hoistProps "x" ⟨0, 5⟩ ⟨0, 6⟩)
          = Except.ok ⟨exampleStore, [sc2], [Module.fresh]⟩
        ∧ List.lookup "x" sc2.hoisted_local_defs = some ⟨0, 5⟩ := by
  obtain ⟨sc2, h1, h2⟩ := C4_last_writer_wins "x" ⟨0, 0⟩ ⟨0, 5⟩ ⟨0, 1⟩ ⟨0, 6⟩
    ⟨exampleStore, [Scope.fresh none], [Module.fresh]⟩ (Scope.fresh none) [] rfl
  exact ⟨sc2, h1, h2⟩

/-- The tree of the C4 counterexample: two hoisted local defs of `x`, at
(0,0) and then (0,5), in the file scope. -/
def exampleTree4 : PTree :=
  .node [] "" ⟨0, 0⟩ ⟨1, 0⟩
    [.node hoistProps "x" ⟨0, 0⟩ ⟨0, 1⟩ [],
     .node hoistProps "x" ⟨0, 5⟩ ⟨0, 6⟩ []]

/-- C4 counterexample: the claim says the hoisted map keeps the FIRST
writer's position, so the flushed hoisted `local_defs` row would sit at
column 0; the walk instead persists the second writer's position,
column 5. -/
theorem C4_counterexample :
    (crawl_tree exampleStore exampleTree4).map
        (fun s => s.store.db.local_defs.map fun r => (r.row, r.column))
      = Except.ok [(0, 5)]
    ∧ (0, 5) ≠ (0, 0) := by
  constructor
  · rfl
  · decide

/-! ## C9: module-part=name sets the current module's name -/

/-- The property bag of a module-name node. -/
def modulePartProps : Props := [("module-part", "name")]

/-- Entering a `module-part=name` node sets the top module's name to the
node's text, overwriting any previous name. -/
theorem enter_node_modulePart (n : String) (p ep : Point) (s : CrawlState)
    (m : Module) (mrest : List Module) (hm : s.module_stack = m :: mrest) :
    enter_node modulePartProps n p ep s = Except.ok { s with module_stack :=
      { m with name := some n } :: mrest } := by
  unfold enter_node
  simp only [enterLocalDef_skip modulePartProps n p rfl,
    enterLocalRef_skip modulePartProps n p rfl,
    enterScope_skip modulePartProps rfl, enterModule_skip modulePartProps rfl,
    enterModulePart_set modulePartProps n s m mrest rfl hm,
    enterDefinition_skip modulePartProps p ep rfl,
    enterDefinitionPart_skip modulePartProps n p rfl,
    enterReference_skip modulePartProps n p rfl, bind_ok]
  rfl

/-- C9 (amended): on a `module-part=name` node the walker sets the
current (top) module's name to the node's text, overwriting whatever
name was there; with several such nodes for the same module, the LAST
occurrence's text is the one left in the module. -/
theorem C9_module_name_overwrites :
    (∀ (n : String) (p ep : Point) (s : CrawlState) (m : Module)
        (mrest : List Module), s.module_stack = m :: mrest →
        enter_node modulePartProps n p ep s = Except.ok { s with module_stack :=
          { m with name := some n } :: mrest })
    ∧ (∀ (t1 t2 : String) (p1 p2 ep1 ep2 : Point) (s : CrawlState) (m : Module)
        (mrest : List Module), s.module_stack = m :: mrest →
        (enter_node modulePartProps t1 p1 ep1 s >>=
            enter_node modulePartProps t2 p2 ep2)
          = Except.ok { s with module_stack :=
              { m with name := some t2 } :: mrest }) := by
  constructor
  · exact enter_node_modulePart
  · intro t1 t2 p1 p2 ep1 ep2 s m mrest hm
    rw [enter_node_modulePart t1 p1 ep1 s m mrest hm, bind_ok,
      enter_node_modulePart t2 p2 ep2 _ { m with name := some t1 } mrest rfl]

/-- C9 witness: setting the name to "a" then to "b" leaves "b". -/
theorem C9_witness :
    (enter_node modulePartProps "a" ⟨0, 7⟩ ⟨0, 8⟩
        ⟨exampleStore, [Scope.fresh none], [Module.fresh]⟩ >>=
      enter_node modulePartProps "b" ⟨0, 9⟩ ⟨0, 10⟩)
      = Except.ok ⟨exampleStore, [Scope.fresh none],
          [{ Module.fresh with name := some "b" }]⟩ :=
  C9_module_name_overwrites.2 "a" "b" ⟨0, 7⟩ ⟨0, 9⟩ ⟨0, 8⟩ ⟨0, 10⟩
    ⟨exampleStore, [Scope.fresh none], [Module.fresh]⟩ Module.fresh [] rfl

/-- The tree of the C9 counterexample: a module with two
`module-part=name` children ("a" then "b") and a named definition. -/
def exampleTree9 : PTree :=
  .node [] "" ⟨0, 0⟩ ⟨5, 0⟩
    [.node [("module", "true")] "" ⟨0, 0⟩ ⟨5, 0⟩
      [.node modulePartProps "a" ⟨0, 7⟩ ⟨0, 8⟩ [],
       .node modulePartProps "b" ⟨0, 9⟩ ⟨0, 10⟩ [],
       .node [("definition", "true")] "" ⟨1, 0⟩ ⟨1, 10⟩
         [.node [("definition-part", "name")] "f" ⟨1, 4⟩ ⟨1, 5⟩ []]]]

/-- C9 counterexample: the claim says the FIRST `module-part=name`
occurrence ("a") wins as the module's persisted name; the walk instead
persists the definition under module path "b\t" (the LAST occurrence),
not "a\t". -/
theorem C9_counterexample :
    (crawl_tree exampleStore exampleTree9).map
        (fun s => s.store.db.defs.map (·.modulePath))
      = Except.ok ["b\t"]
    ∧ "b\t" ≠ "a\t" := by
  constructor
  · rfl
  · decide

/-! ## C5: unmatched local references -/

theorem processRef_none_parent (dIds : List ((String × Point) × Nat))
    (hIds : List (String × Nat)) (sf : StoreFile) (r : String × Point) :
    ∃ sf', processRef dIds hIds sf none r = (sf', none) := by
  unfold processRef
  cases scanLocalDefs dIds r none with
  | some id => exact ⟨_, rfl⟩
  | none =>
    cases List.lookup r.1 hIds with
    | some id => exact ⟨_, rfl⟩
    | none => exact ⟨_, rfl⟩

theorem foldl_processRef_none (dIds : List ((String × Point) × Nat))
    (hIds : List (String × Nat)) :
    ∀ (refs : List (String × Point)) (sf : StoreFile),
      (refs.foldl (resolveStep dIds hIds) (sf, (none : Option Scope))).2 = none := by
  intro refs
  induction refs with
  | nil => intro sf; rfl
  | cons r rs ih =>
    intro sf
    obtain ⟨sf', h⟩ := processRef_none_parent dIds hIds sf r
    rw [List.foldl_cons]
    show (rs.foldl _ (processRef dIds hIds sf none r)).2 = none
    rw [h]
    exact ih sf'

/-- Popping the file (bottom) scope never fails and leaves the scope
stack empty. -/
theorem pop_scope_bottom (s : CrawlState) (scope : Scope)
    (h : s.scope_stack = [scope]) :
    ∃ sf', pop_scope s = Except.ok { s with store := sf', scope_stack := [] } := by
  unfold pop_scope
  rw [h]
  simp only [List.head?, foldl_processRef_none]
  exact ⟨_, rfl⟩

/-- C5: a local reference matching no non-hoisted definition of its
popped scope is looked up in the scope's hoisted map by name alone
(no position comparison, so a ref before the hoisted def still
resolves); if still unmatched it is pushed onto the parent scope's
local-ref list; and when there is no parent (the file scope) it is
dropped — no row inserted — while popping the file scope itself
returns successfully. -/
theorem C5_unmatched_refs :
    (∀ (dIds : List ((String × Point) × Nat)) (hIds : List (String × Nat))
        (sf : StoreFile) (parent : Option Scope) (r : String × Point) (id : Nat),
        scanLocalDefs dIds r none = none →
        List.lookup r.1 hIds = some id →
        processRef dIds hIds sf parent r
          = (sf.insert_local_ref id r.1 r.2, parent))
    ∧ (∀ (dIds : List ((String × Point) × Nat)) (hIds : List (String × Nat))
        (sf : StoreFile) (p : Scope) (r : String × Point),
        scanLocalDefs dIds r none = none →
        List.lookup r.1 hIds = none →
        processRef dIds hIds sf (some p) r
          = (sf, some { p with local_refs := p.local_refs ++ [r] }))
    ∧ (∀ (dIds : List ((String × Point) × Nat)) (hIds : List (String × Nat))
        (sf : StoreFile) (r : String × Point),
        scanLocalDefs dIds r none = none →
        List.lookup r.1 hIds = none →
        processRef dIds hIds sf none r = (sf, none))
    ∧ (∀ (s : CrawlState) (scope : Scope), s.scope_stack = [scope] →
        ∃ s', pop_scope s = Except.ok s' ∧ s'.scope_stack = []) := by
  refine ⟨?_, ?_, ?_, ?_⟩
  · intro dIds hIds sf parent r id h1 h2
    unfold processRef
    rw [h1, h2]
  · intro dIds hIds sf p r h1 h2
    unfold processRef
    rw [h1, h2]
  · intro dIds hIds sf r h1 h2
    unfold processRef
    rw [h1, h2]
  · intro s scope h
    obtain ⟨sf', e⟩ := pop_scope_bottom s scope h
    exact ⟨_, e, rfl⟩

/-- C5 witness: a ref to `f` at (0,0), no non-hoisted defs, a hoisted id
for `f` (whose def sits later in the file); the ref is persisted against
it. Also: popping a file scope consisting of just that ref succeeds. -/
theorem C5_witness :
    processRef [] [("f", 0)] exampleStore none ("f", ⟨0, 0⟩)
      = (exampleStore.insert_local_ref 0 "f" ⟨0, 0⟩, none)
    ∧ ∃ s', pop_scope ⟨exampleStore, [⟨none, [("g", ⟨0, 2⟩)], [], []⟩],
          [Module.fresh]⟩ = Except.ok s' ∧ s'.scope_stack = [] := by
  constructor
  · exact C5_unmatched_refs.1 [] [("f", 0)] exampleStore none ("f", ⟨0, 0⟩) 0 rfl rfl
  · exact C5_unmatched_refs.2.2.2 ⟨exampleStore, [⟨none, [("g", ⟨0, 2⟩)], [], []⟩],
      [Module.fresh]⟩ ⟨none, [("g", ⟨0, 2⟩)], [], []⟩ rfl

/-! ## C6: module paths of flushed global definitions -/

/-- The claim's serialization: a tab after every entry, including the
last (trailing separator). -/
def specModulePath (names : List String) : String :=
  String.join (names.map (· ++ "\t"))

theorem foldl_string_append_init (l : List String) :
    ∀ a : String, l.foldl (· ++ ·) a = a ++ l.foldl (· ++ ·) "" := by
  induction l with
  | nil =>
    intro a
    simp
  | cons x xs ih =>
    intro a
    rw [List.foldl_cons, List.foldl_cons, ih (a ++ x), ih ("" ++ x)]
    rw [String.empty_append, String.append_assoc]

theorem foldl_append_tab (l : List String) :
    ∀ acc : String, l.foldl (fun a e => a ++ e ++ "\t") acc
      = acc ++ specModulePath l := by
  induction l with
  | nil =>
    intro acc
    show acc = acc ++ String.join []
    simp [String.join]
  | cons e rest ih =>
    intro acc
    show rest.foldl (fun a e => a ++ e ++ "\t") (acc ++ e ++ "\t")
      = acc ++ specModulePath (e :: rest)
    rw [ih (acc ++ e ++ "\t")]
    simp only [specModulePath, List.map_cons, String.join, List.foldl_cons]
    rw [foldl_string_append_init (rest.map fun x => x ++ "\t") ("" ++ (e ++ "\t"))]
    rw [String.empty_append, String.append_assoc]
    rw [String.append_assoc acc e]
    rw [String.append_assoc e "\t"]

theorem serializeModulePath_eq_spec (l : List String) :
    serializeModulePath l = specModulePath l := by
  have := foldl_append_tab l ""
  unfold serializeModulePath
  rw [this]
  simp

/-- The flush loop of `pop_module`: inserting each completed definition
that has a name appends exactly the corresponding `defs` rows. -/
theorem foldl_insert_def (mp : List String) :
    ∀ (ds : List Definition) (sf : StoreFile),
      (ds.foldl (fun sf d =>
          match d.name with
          | some np => sf.insert_def np.1 np.2 d.start_position d.end_position d.kind mp
          | none => sf) sf)
        = { sf with db := { sf.db with defs := sf.db.defs ++
            (ds.filterMap fun d => d.name.map fun np =>
              (⟨sf.fileId, d.start_position.row, d.start_position.column,
                d.end_position.row, d.end_position.column,
                np.1, np.2.row, np.2.column, d.kind,
                serializeModulePath mp⟩ : DefRow)) } } := by
  intro ds
  induction ds with
  | nil =>
    intro sf
    simp
  | cons d rest ih =>
    intro sf
    rw [List.foldl_cons]
    cases hn : d.name with
    | none =>
      rw [ih sf]
      simp [List.filterMap_cons, hn]
    | some np =>
      rw [ih (sf.insert_def np.1 np.2 d.start_position d.end_position d.kind mp)]
      simp [List.filterMap_cons, hn, StoreFile.insert_def]

/-- C6: when a module node is popped, every completed definition that
has a name is inserted as a global definition whose `module_path` is the
names of the modules on the module stack from outermost up to and
including the just-popped module, skipping nameless modules, with a tab
after every entry including the last. -/
theorem C6_module_pop (s : CrawlState) (m : Module) (mrest : List Module)
    (h : s.module_stack = m :: mrest) :
    pop_module s = Except.ok { s with
      store := { s.store with db := { s.store.db with defs := s.store.db.defs ++
        (m.definitions.filterMap fun d => d.name.map fun np =>
          (⟨s.store.fileId, d.start_position.row, d.start_position.column,
            d.end_position.row, d.end_position.column,
            np.1, np.2.row, np.2.column, d.kind,
            specModulePath ((m :: mrest).reverse.filterMap (·.name))⟩ : DefRow)) } },
      module_stack := mrest } := by
  unfold pop_module
  rw [h]
  show Except.ok _ = _
  rw [foldl_insert_def ((m :: mrest).reverse.filterMap (·.name)) m.definitions s.store]
  simp only [serializeModulePath_eq_spec]

/-- The top (just-popped) module of the C6 witness: named "b", holding
one completed definition `c`. -/
def exampleModuleB : Module :=
  ⟨some "b", [⟨some ("c", ⟨2, 4⟩), none, ⟨2, 0⟩, ⟨2, 10⟩⟩], []⟩

/-- The module below it, named "a". -/
def exampleModuleA : Module := ⟨some "a", [], []⟩

/-- C6 witness: popping module "b" inside module "a" inserts the row for
`c` with module path "a\tb\t" (trailing tab). -/
theorem C6_witness :
    pop_module ⟨exampleStore, [Scope.fresh none], [exampleModuleB, exampleModuleA]⟩
      = Except.ok ⟨{ exampleStore with db := { exampleStore.db with defs :=
          [⟨1, 2, 0, 2, 10, "c", 2, 4, none, "a\tb\t"⟩] } },
        [Scope.fresh none], [exampleModuleA]⟩ := by
  rw [C6_module_pop ⟨exampleStore, [Scope.fresh none],
    [exampleModuleB, exampleModuleA]⟩ exampleModuleB [exampleModuleA] rfl]
  rfl

/-! ## C7: find_definition on an unindexed path -/

/-- The empty store. -/
def emptyStoreDB : StoreDB := ⟨0, 0, [], [], [], [], []⟩

/-- C7 (amended): calling `find_definition` with a path that has no row
in the files table fails with the no-rows error (`NotIndexed`) — it does
not return an empty result list. -/
theorem C7_unknown_path_errors (db : StoreDB) (path : String) (pos : Point)
    (h : files_lookup db path = none) :
    find_definition db path pos = Except.error QueryError.NotIndexed := by
  unfold find_definition
  rw [h]

/-- C7 counterexample: on the empty store, a query for path "a" returns
the NotIndexed error — not the empty result list the claim states. -/
theorem C7_counterexample :
    find_definition emptyStoreDB "a" ⟨0, 0⟩ = Except.error QueryError.NotIndexed
    ∧ find_definition emptyStoreDB "a" ⟨0, 0⟩ ≠ Except.ok [] := by
  refine ⟨rfl, ?_⟩
  intro hc
  exact Except.noConfusion hc

/-- C7 witness for the amended theorem, at a fresh path and position. -/
theorem C7_witness :
    find_definition emptyStoreDB "b" ⟨1, 2⟩ = Except.error QueryError.NotIndexed :=
  C7_unknown_path_errors emptyStoreDB "b" ⟨1, 2⟩ rfl

/-! ## C3: referential integrity of local references -/

/-- A local-def id freshly allocated relative to a baseline handle `a`:
some `local_defs` row of `b` carries it, for `a`'s file, with an id at
or past `a`'s next rowid (i.e. the row was inserted after `a`). -/
def FreshDefId (a b : StoreFile) (i : Nat) : Prop :=
  ∃ ld ∈ b.db.local_defs, ld.id = i ∧ ld.fileId = a.fileId ∧
    a.db.nextLocalDefId ≤ ld.id

/-- What a walk step does to the local tables: the file id is stable,
`local_defs` only grows with rows of this file carrying fresh ids, and
every `local_refs` row is pre-existing or points at a freshly inserted
`local_defs` row of the same file. -/
def LocalStep (a b : StoreFile) : Prop :=
  b.fileId = a.fileId ∧
  a.db.nextLocalDefId ≤ b.db.nextLocalDefId ∧
  (∀ x ∈ a.db.local_defs, x ∈ b.db.local_defs) ∧
  (∀ ld ∈ b.db.local_defs, ld ∈ a.db.local_defs ∨
    (ld.fileId = a.fileId ∧ a.db.nextLocalDefId ≤ ld.id)) ∧
  (∀ lr ∈ b.db.local_refs, lr ∈ a.db.local_refs ∨
    (lr.fileId = a.fileId ∧ FreshDefId a b lr.definitionId))

theorem localStep_refl (a : StoreFile) : LocalStep a a :=
  ⟨rfl, Nat.le_refl _, fun _ hx => hx, fun ld hld => Or.inl hld,
   fun lr hlr => Or.inl hlr⟩

theorem localStep_trans {a b c : StoreFile}
    (h1 : LocalStep a b) (h2 : LocalStep b c) : LocalStep a c := by
  obtain ⟨f1, n1, s1, d1, r1⟩ := h1
  obtain ⟨f2, n2, s2, d2, r2⟩ := h2
  refine ⟨f2.trans f1, Nat.le_trans n1 n2, fun x hx => s2 x (s1 x hx), ?_, ?_⟩
  · intro ld hld
    rcases d2 ld hld with hin | ⟨hf, hn⟩
    · exact d1 ld hin
    · exact Or.inr ⟨hf.trans f1, Nat.le_trans n1 hn⟩
  · intro lr hlr
    rcases r2 lr hlr with hin | ⟨hf, ld, hld, hid, hldf, hldn⟩
    · rcases r1 lr hin with h | ⟨hf, ld, hld, hrest⟩
      · exact Or.inl h
      · exact Or.inr ⟨hf, ld, s2 ld hld, hrest⟩
    · exact Or.inr ⟨hf.trans f1,
        ld, hld, hid, hldf.trans f1, Nat.le_trans n1 hldn⟩

theorem freshDefId_mono {a b c : StoreFile}
    (hsub : ∀ x ∈ b.db.local_defs, x ∈ c.db.local_defs) (i : Nat)
    (h : FreshDefId a b i) : FreshDefId a c i := by
  obtain ⟨ld, hld, hrest⟩ := h
  exact ⟨ld, hsub ld hld, hrest⟩

theorem freshDefId_of_step {a sf b : StoreFile} (h : LocalStep a sf) (i : Nat)
    (hf : FreshDefId sf b i) : FreshDefId a b i := by
  obtain ⟨ld, hld, hid, hldf, hldn⟩ := hf
  exact ⟨ld, hld, hid, hldf.trans h.1, Nat.le_trans h.2.1 hldn⟩

theorem insert_ref_localStep (sf : StoreFile) (n : String) (p : Point)
    (k : Option String) : LocalStep sf (sf.insert_ref n p k) :=
  ⟨rfl, Nat.le_refl _, fun _ hx => hx, fun ld hld => Or.inl hld,
   fun lr hlr => Or.inl hlr⟩

theorem insert_local_def_localStep (sf : StoreFile) (n : String) (p : Point) :
    LocalStep sf (sf.insert_local_def n p).1
    ∧ FreshDefId sf (sf.insert_local_def n p).1 (sf.insert_local_def n p).2
    ∧ (∀ x ∈ sf.db.local_defs, x ∈ (sf.insert_local_def n p).1.db.local_defs) := by
  refine ⟨⟨rfl, Nat.le_succ _, fun x hx => List.mem_append_left _ hx, ?_,
      fun lr hlr => Or.inl hlr⟩, ?_, fun x hx => List.mem_append_left _ hx⟩
  · intro ld hld
    rcases List.mem_append.mp hld with h | h
    · exact Or.inl h
    · have he := List.mem_singleton.mp h
      refine Or.inr ⟨?_, ?_⟩
      · rw [he]
      · rw [he]
  · exact ⟨⟨sf.db.nextLocalDefId, sf.fileId, p.row, p.column, n.utf8ByteSize⟩,
      List.mem_append_right _ (List.mem_singleton_self _), rfl, rfl,
      Nat.le_refl _⟩

theorem insert_local_ref_localStep {a sf : StoreFile} (h : LocalStep a sf)
    (i : Nat) (n : String) (p : Point) (hi : FreshDefId a sf i) :
    LocalStep a (sf.insert_local_ref i n p) := by
  obtain ⟨hf, hn, hs, hd, hr⟩ := h
  refine ⟨hf, hn, hs, hd, ?_⟩
  intro lr hlr
  rcases List.mem_append.mp hlr with hin | hnew
  · exact hr lr hin
  · have he := List.mem_singleton.mp hnew
    refine Or.inr ⟨?_, ?_⟩
    · rw [he]
      exact hf
    · rw [he]
      exact hi

theorem foldl_flushDefStep (a : StoreFile) :
    ∀ (ds : List (String × Point)) (sf : StoreFile) (acc : List Nat),
      LocalStep a sf → (∀ i ∈ acc, FreshDefId a sf i) →
      LocalStep a (ds.foldl flushDefStep (sf, acc)).1
      ∧ ∀ i ∈ (ds.foldl flushDefStep (sf, acc)).2,
          FreshDefId a (ds.foldl flushDefStep (sf, acc)).1 i := by
  intro ds
  induction ds with
  | nil => intro sf acc h hacc; exact ⟨h, hacc⟩
  | cons d rest ih =>
    intro sf acc h hacc
    rw [List.foldl_cons]
    obtain ⟨hstep, hfresh, hsub⟩ := insert_local_def_localStep sf d.1 d.2
    show LocalStep a (rest.foldl flushDefStep
        ((sf.insert_local_def d.1 d.2).1,
         acc ++ [(sf.insert_local_def d.1 d.2).2])).1 ∧ _
    apply ih
    · exact localStep_trans h hstep
    · intro i hi
      rcases List.mem_append.mp hi with hin | hnew
      · exact freshDefId_mono hsub i (hacc i hin)
      · rw [List.mem_singleton.mp hnew]
        exact freshDefId_of_step h _ hfresh

theorem foldl_flushHoistStep (a : StoreFile) :
    ∀ (ds : List (String × Point)) (sf : StoreFile) (acc : List (String × Nat)),
      LocalStep a sf → (∀ e ∈ acc, FreshDefId a sf e.2) →
      LocalStep a (ds.foldl flushHoistStep (sf, acc)).1
      ∧ (∀ e ∈ (ds.foldl flushHoistStep (sf, acc)).2,
          FreshDefId a (ds.foldl flushHoistStep (sf, acc)).1 e.2)
      ∧ (∀ x ∈ sf.db.local_defs,
          x ∈ (ds.foldl flushHoistStep (sf, acc)).1.db.local_defs) := by
  intro ds
  induction ds with
  | nil => intro sf acc h hacc; exact ⟨h, hacc, fun x hx => hx⟩
  | cons d rest ih =>
    intro sf acc h hacc
    rw [List.foldl_cons]
    obtain ⟨hstep, hfresh, hsub⟩ := insert_local_def_localStep sf d.1 d.2
    show LocalStep a (rest.foldl flushHoistStep
        ((sf.insert_local_def d.1 d.2).1,
         acc ++ [(d.1, (sf.insert_local_def d.1 d.2).2)])).1 ∧ _
    have hrec := ih (sf.insert_local_def d.1 d.2).1
      (acc ++ [(d.1, (sf.insert_local_def d.1 d.2).2)])
      (localStep_trans h hstep) ?_
    · exact ⟨hrec.1, hrec.2.1, fun x hx => hrec.2.2 x (hsub x hx)⟩
    · intro e he
      rcases List.mem_append.mp he with hin | hnew
      · exact freshDefId_mono hsub e.2 (hacc e hin)
      · rw [List.mem_singleton.mp hnew]
        exact freshDefId_of_step h _ hfresh

theorem scanLocalDefs_mem (r : String × Point) :
    ∀ (l : List ((String × Point) × Nat)) (acc : Option Nat) (i : Nat),
      scanLocalDefs l r acc = some i → acc = some i ∨ i ∈ l.map (·.2) := by
  intro l
  induction l with
  | nil => intro acc i h; exact Or.inl h
  | cons d rest ih =>
    intro acc i h
    obtain ⟨⟨dn, dp⟩, did⟩ := d
    cases hp : Point.lt r.2 dp with
    | true =>
      simp only [scanLocalDefs, hp, if_pos] at h
      exact Or.inl h
    | false =>
      simp only [scanLocalDefs, hp, Bool.false_eq_true, if_false] at h
      cases hn : (dn == r.1) with
      | true =>
        rw [hn] at h
        rcases ih _ i h with hl | hr
        · simp only [if_pos] at hl
          have hdi : did = i := Option.some.inj hl
          rw [List.map_cons, ← hdi]
          exact Or.inr (List.mem_cons_self _ _)
        · rw [List.map_cons]
          exact Or.inr (List.mem_cons_of_mem _ hr)
      | false =>
        rw [hn] at h
        rcases ih _ i h with hl | hr
        · simp only [Bool.false_eq_true, if_false] at hl
          exact Or.inl hl
        · rw [List.map_cons]
          exact Or.inr (List.mem_cons_of_mem _ hr)

theorem lookup_mem {beta : Type} (k : String) :
    ∀ (l : List (String × beta)) (v : beta),
      List.lookup k l = some v → ∃ e ∈ l, e.2 = v := by
  intro l
  induction l with
  | nil => intro v h; exact absurd h (by simp [List.lookup])
  | cons e rest ih =>
    intro v h
    obtain ⟨k2, v2⟩ := e
    cases hk : (k == k2) with
    | true =>
      simp only [List.lookup, hk] at h
      exact ⟨(k2, v2), List.mem_cons_self _ _, Option.some.inj h⟩
    | false =>
      simp only [List.lookup, hk] at h
      obtain ⟨e2, he2, hv⟩ := ih v h
      exact ⟨e2, List.mem_cons_of_mem _ he2, hv⟩

theorem foldl_resolveStep (a : StoreFile) (dIds : List ((String × Point) × Nat))
    (hIds : List (String × Nat)) :
    ∀ (refs : List (String × Point)) (sf : StoreFile) (parent : Option Scope),
      LocalStep a sf →
      (∀ i ∈ dIds.map (·.2), FreshDefId a sf i) →
      (∀ e ∈ hIds, FreshDefId a sf e.2) →
      LocalStep a (refs.foldl (resolveStep dIds hIds) (sf, parent)).1 := by
  intro refs
  induction refs with
  | nil => intro sf parent h _ _; exact h
  | cons r rs ih =>
    intro sf parent h hd hh
    rw [List.foldl_cons]
    cases hscan : scanLocalDefs dIds r none with
    | some i =>
      have hfresh : FreshDefId a sf i := by
        rcases scanLocalDefs_mem r dIds none i hscan with hl | hr
        · exact absurd hl (by simp)
        · exact hd i hr
      have hstep : resolveStep dIds hIds (sf, parent) r
          = (sf.insert_local_ref i r.1 r.2, parent) := by
        show processRef dIds hIds sf parent r = _
        unfold processRef
        rw [hscan]
      rw [hstep]
      exact ih _ _ (insert_local_ref_localStep h i r.1 r.2 hfresh)
        (fun j hj => hd j hj) (fun e he => hh e he)
    | none =>
      cases hlook : List.lookup r.1 hIds with
      | some i =>
        have hfresh : FreshDefId a sf i := by
          obtain ⟨e, he, hv⟩ := lookup_mem r.1 hIds i hlook
          exact hv ▸ hh e he
        have hstep : resolveStep dIds hIds (sf, parent) r
            = (sf.insert_local_ref i r.1 r.2, parent) := by
          show processRef dIds hIds sf parent r = _
          unfold processRef
          rw [hscan, hlook]
        rw [hstep]
        exact ih _ _ (insert_local_ref_localStep h i r.1 r.2 hfresh)
          (fun j hj => hd j hj) (fun e he => hh e he)
      | none =>
        have hfst : (resolveStep dIds hIds (sf, parent) r).1 = sf := by
          show (processRef dIds hIds sf parent r).1 = sf
          unfold processRef
          rw [hscan, hlook]
          cases parent <;> rfl
        have hpair : resolveStep dIds hIds (sf, parent) r
            = (sf, (resolveStep dIds hIds (sf, parent) r).2) :=
          Prod.ext hfst rfl
        rw [hpair]
        exact ih _ _ h hd hh

theorem pop_scope_localStep (s s2 : CrawlState)
    (h : pop_scope s = Except.ok s2) : LocalStep s.store s2.store := by
  unfold pop_scope at h
  cases hst : s.scope_stack with
  | nil =>
    rw [hst] at h
    exact Except.noConfusion h
  | cons scope rest =>
    rw [hst] at h
    have h2 := Except.ok.inj h
    rw [← h2]
    obtain ⟨L1, F1⟩ := foldl_flushDefStep s.store scope.local_defs s.store []
      (localStep_refl _) (by intro i hi; cases hi)
    obtain ⟨L2, F2, S2⟩ := foldl_flushHoistStep s.store scope.hoisted_local_defs
      (scope.local_defs.foldl flushDefStep (s.store, [])).1 [] L1
      (by intro e he; cases he)
    show LocalStep s.store (scope.local_refs.foldl
      (resolveStep (scope.local_defs.zip
          (scope.local_defs.foldl flushDefStep (s.store, [])).2)
        (scope.hoisted_local_defs.foldl flushHoistStep
          ((scope.local_defs.foldl flushDefStep (s.store, [])).1, [])).2)
      ((scope.hoisted_local_defs.foldl flushHoistStep
          ((scope.local_defs.foldl flushDefStep (s.store, [])).1, [])).1,
       rest.head?)).1
    apply foldl_resolveStep s.store _ _ scope.local_refs _ rest.head? L2
    · intro i hi
      obtain ⟨pair, hpmem, hpi⟩ := List.mem_map.mp hi
      have hin2 : pair.2 ∈ (scope.local_defs.foldl flushDefStep (s.store, [])).2 := by
        obtain ⟨x, y⟩ := pair
        exact (List.of_mem_zip hpmem).2
      have hf := F1 pair.2 hin2
      rw [← hpi]
      exact freshDefId_mono S2 pair.2 hf
    · exact F2

theorem bind_error {alpha beta : Type} (p : Panic)
    (f : alpha → Except Panic beta) :
    (Except.error p : Except Panic alpha) >>= f = Except.error p := rfl

theorem pure_bind_ok {alpha beta : Type} (a : alpha)
    (f : alpha → Except Panic beta) :
    (pure a : Except Panic alpha) >>= f = f a := rfl

theorem enterLocalDef_store (props : Props) (n : String) (p : Point)
    (s s2 : CrawlState) (h : enterLocalDef props n p s = Except.ok s2) :
    s2.store = s.store := by
  unfold enterLocalDef at h
  split at h
  · dsimp only [] at h
    split at h
    · rw [← Except.ok.inj h]
    · exact Except.noConfusion h
  · rw [← Except.ok.inj h]

theorem enterLocalRef_store (props : Props) (n : String) (p : Point)
    (s s2 : CrawlState) (h : enterLocalRef props n p s = Except.ok s2) :
    s2.store = s.store := by
  unfold enterLocalRef at h
  split at h
  · split at h
    · rw [← Except.ok.inj h]
    · exact Except.noConfusion h
  · rw [← Except.ok.inj h]

theorem enterScope_store (props : Props) (s : CrawlState) :
    (enterScope props s).store = s.store := by
  unfold enterScope
  split <;> rfl

theorem enterModule_store (props : Props) (s : CrawlState) :
    (enterModule props s).store = s.store := by
  unfold enterModule
  split <;> rfl

theorem enterModulePart_store (props : Props) (n : String)
    (s s2 : CrawlState) (h : enterModulePart props n s = Except.ok s2) :
    s2.store = s.store := by
  unfold enterModulePart at h
  split at h
  · split at h
    · exact Except.noConfusion h
    · rw [← Except.ok.inj h]
  · rw [← Except.ok.inj h]

theorem enterDefinition_store (props : Props) (p ep : Point)
    (s s2 : CrawlState) (h : enterDefinition props p ep s = Except.ok s2) :
    s2.store = s.store := by
  unfold enterDefinition at h
  split at h
  · dsimp only [] at h
    split at h
    · exact Except.noConfusion h
    · rw [← Except.ok.inj h]
  · rw [← Except.ok.inj h]

theorem enterDefinitionPart_store (props : Props) (n : String) (p : Point)
    (s s2 : CrawlState) (h : enterDefinitionPart props n p s = Except.ok s2) :
    s2.store = s.store := by
  unfold enterDefinitionPart at h
  split at h
  · split at h
    · exact Except.noConfusion h
    · split at h
      · exact Except.noConfusion h
      · rw [← Except.ok.inj h]
  · dsimp only [] at h
    split at h
    · split at h
      · exact Except.noConfusion h
      · split at h
        · exact Except.noConfusion h
        · rw [← Except.ok.inj h]
    · rw [← Except.ok.inj h]
  · rw [← Except.ok.inj h]

theorem enterReference_localStep (props : Props) (n : String) (p : Point)
    (s : CrawlState) : LocalStep s.store (enterReference props n p s).store := by
  unfold enterReference
  split
  · exact insert_ref_localStep s.store n p (get_property props "reference-type")
  · exact localStep_refl _

theorem enter_node_localStep (props : Props) (text : String) (sp ep : Point)
    (s s' : CrawlState) (h : enter_node props text sp ep s = Except.ok s') :
    LocalStep s.store s'.store := by
  unfold enter_node at h
  cases e1 : enterLocalDef props text sp s with
  | error p => rw [e1, bind_error] at h; exact Except.noConfusion h
  | ok s1 =>
    simp only [e1, bind_ok] at h
    cases e2 : enterLocalRef props text sp s1 with
    | error p => rw [e2, bind_error] at h; exact Except.noConfusion h
    | ok s2 =>
      simp only [e2, bind_ok] at h
      cases e3 : enterModulePart props text (enterModule props (enterScope props s2)) with
      | error p => rw [e3, bind_error] at h; exact Except.noConfusion h
      | ok s3 =>
        simp only [e3, bind_ok] at h
        cases e4 : enterDefinition props sp ep s3 with
        | error p => rw [e4, bind_error] at h; exact Except.noConfusion h
        | ok s4 =>
          simp only [e4, bind_ok] at h
          cases e5 : enterDefinitionPart props text sp s4 with
          | error p => rw [e5, bind_error] at h; exact Except.noConfusion h
          | ok s5 =>
            simp only [e5, bind_ok] at h
            have h6 : enterReference props text sp s5 = s' := Except.ok.inj h
            have hs5 : s5.store = s.store := by
              rw [enterDefinitionPart_store props text sp s4 s5 e5,
                enterDefinition_store props sp ep s3 s4 e4,
                enterModulePart_store props text _ s3 e3,
                enterModule_store, enterScope_store,
                enterLocalRef_store props text sp s1 s2 e2,
                enterLocalDef_store props text sp s s1 e1]
            have q8 : LocalStep s5.store s'.store :=
              h6 ▸ enterReference_localStep props text sp s5
            exact hs5 ▸ q8

theorem pop_definition_store (s s2 : CrawlState)
    (h : pop_definition s = Except.ok s2) : s2.store = s.store := by
  unfold pop_definition at h
  split at h
  · exact Except.noConfusion h
  · split at h
    · exact Except.noConfusion h
    · rw [← Except.ok.inj h]

theorem pop_module_localStep (s s2 : CrawlState)
    (h : pop_module s = Except.ok s2) : LocalStep s.store s2.store := by
  unfold pop_module at h
  cases hst : s.module_stack with
  | nil => rw [hst] at h; exact Except.noConfusion h
  | cons m rest =>
    rw [hst] at h
    have h2 := Except.ok.inj h
    rw [← h2]
    show LocalStep s.store (m.definitions.foldl _ s.store)
    rw [foldl_insert_def ((m :: rest).reverse.filterMap (·.name))
      m.definitions s.store]
    exact ⟨rfl, Nat.le_refl _, fun _ hx => hx, fun ld hld => Or.inl hld,
      fun lr hlr => Or.inl hlr⟩

theorem leaveScope_localStep (props : Props) (s s2 : CrawlState)
    (h : leaveScope props s = Except.ok s2) : LocalStep s.store s2.store := by
  unfold leaveScope at h
  split at h
  · exact pop_scope_localStep s s2 h
  · rw [← Except.ok.inj h]
    exact localStep_refl _

theorem leaveDefinition_localStep (props : Props) (s s2 : CrawlState)
    (h : leaveDefinition props s = Except.ok s2) : LocalStep s.store s2.store := by
  unfold leaveDefinition at h
  split at h
  · rw [pop_definition_store s s2 h]
    exact localStep_refl _
  · rw [← Except.ok.inj h]
    exact localStep_refl _

theorem leaveModule_localStep (props : Props) (s s2 : CrawlState)
    (h : leaveModule props s = Except.ok s2) : LocalStep s.store s2.store := by
  unfold leaveModule at h
  split at h
  · exact pop_module_localStep s s2 h
  · rw [← Except.ok.inj h]
    exact localStep_refl _

theorem leave_node_localStep (props : Props) (s s' : CrawlState)
    (h : leave_node props s = Except.ok s') : LocalStep s.store s'.store := by
  unfold leave_node at h
  cases e1 : leaveScope props s with
  | error p => rw [e1, bind_error] at h; exact Except.noConfusion h
  | ok s1 =>
    simp only [e1, bind_ok] at h
    cases e2 : leaveDefinition props s1 with
    | error p => rw [e2, bind_error] at h; exact Except.noConfusion h
    | ok s2 =>
      simp only [e2, bind_ok] at h
      exact localStep_trans (localStep_trans
        (leaveScope_localStep props s s1 e1)
        (leaveDefinition_localStep props s1 s2 e2))
        (leaveModule_localStep props s2 s' h)

mutual

theorem visit_localStep (t : PTree) (s s' : CrawlState)
    (h : visit t s = Except.ok s') : LocalStep s.store s'.store := by
  cases t with
  | node props text sp ep children =>
    unfold visit at h
    cases e1 : enter_node props text sp ep s with
    | error p => rw [e1, bind_error] at h; exact Except.noConfusion h
    | ok s1 =>
      simp only [e1, bind_ok] at h
      have step1 := enter_node_localStep props text sp ep s s1 e1
      cases children with
      | nil =>
        rw [← Except.ok.inj h]
        exact step1
      | cons c cs =>
        dsimp only [] at h
        cases e2 : visit c s1 with
        | error p => rw [e2, bind_error] at h; exact Except.noConfusion h
        | ok s2 =>
          simp only [e2, bind_ok] at h
          cases e3 : visitList cs s2 with
          | error p => rw [e3, bind_error] at h; exact Except.noConfusion h
          | ok s3 =>
            simp only [e3, bind_ok] at h
            exact localStep_trans (localStep_trans (localStep_trans step1
              (visit_localStep c s1 s2 e2))
              (visitList_localStep cs s2 s3 e3))
              (leave_node_localStep props s3 s' h)

theorem visitList_localStep (ts : List PTree) (s s' : CrawlState)
    (h : visitList ts s = Except.ok s') : LocalStep s.store s'.store := by
  cases ts with
  | nil =>
    unfold visitList at h
    rw [← Except.ok.inj h]
    exact localStep_refl _
  | cons t rest =>
    unfold visitList at h
    cases e1 : visit t s with
    | error p => rw [e1, bind_error] at h; exact Except.noConfusion h
    | ok s1 =>
      simp only [e1, bind_ok] at h
      exact localStep_trans (visit_localStep t s s1 e1)
        (visitList_localStep rest s1 s' h)

end

theorem crawl_tree_localStep (sf : StoreFile) (t : PTree) (s' : CrawlState)
    (h : crawl_tree sf t = Except.ok s') : LocalStep sf s'.store := by
  unfold crawl_tree at h
  cases t with
  | node props text sp ep children =>
    cases children with
    | nil =>
      dsimp only [] at h
      simp only [pure_bind_ok] at h
      cases e1 : pop_module
          (⟨sf, [Scope.fresh none], [Module.fresh]⟩ : CrawlState) with
      | error p => rw [e1, bind_error] at h; exact Except.noConfusion h
      | ok s1 =>
        simp only [e1, bind_ok] at h
        exact localStep_trans (pop_module_localStep _ s1 e1)
          (pop_scope_localStep s1 s' h)
    | cons c cs =>
      dsimp only [] at h
      cases e1 : visit c (⟨sf, [Scope.fresh none], [Module.fresh]⟩ : CrawlState) with
      | error p =>
        rw [e1, bind_error] at h
        exact Except.noConfusion h
      | ok s1 =>
        simp only [e1, bind_ok] at h
        cases e2 : visitList cs s1 with
        | error p => rw [e2, bind_error] at h; exact Except.noConfusion h
        | ok s2 =>
          simp only [e2, bind_ok] at h
          cases e3 : leave_node props s2 with
          | error p => rw [e3, bind_error] at h; exact Except.noConfusion h
          | ok s3 =>
            simp only [e3, bind_ok] at h
            cases e4 : pop_module s3 with
            | error p => rw [e4, bind_error] at h; exact Except.noConfusion h
            | ok s4 =>
              simp only [e4, bind_ok] at h
              exact localStep_trans (localStep_trans (localStep_trans
                (localStep_trans
                  (visit_localStep c _ s1 e1)
                  (visitList_localStep cs s1 s2 e2))
                (leave_node_localStep props s2 s3 e3))
                (pop_module_localStep s3 s4 e4))
                (pop_scope_localStep s4 s' h)

/-- C3: after a completed file walk, every `local_refs` row inserted by
the walk carries a `definition_id` equal to the id of a `local_defs` row
inserted by the same walk for the same file; no `local_refs` row is
written without such a matching row. The hypothesis says the baseline
handle's existing ids are below its rowid allocator (true of any real
sqlite state). -/
theorem C3_ref_integrity (sf : StoreFile) (t : PTree) (s' : CrawlState)
    (hbound : ∀ ld ∈ sf.db.local_defs, ld.id < sf.db.nextLocalDefId)
    (h : crawl_tree sf t = Except.ok s') :
    ∀ lr ∈ s'.store.db.local_refs, lr ∉ sf.db.local_refs →
      ∃ ld ∈ s'.store.db.local_defs, ld ∉ sf.db.local_defs ∧
        ld.id = lr.definitionId ∧ ld.fileId = sf.fileId ∧
        lr.fileId = sf.fileId := by
  intro lr hlr hnew
  obtain ⟨hf, hn, hs, hd, hr⟩ := crawl_tree_localStep sf t s' h
  rcases hr lr hlr with hin | ⟨hfid, ld, hld, hid, hldf, hldn⟩
  · exact absurd hin hnew
  · refine ⟨ld, hld, ?_, hid, hldf, hfid⟩
    intro hcontra
    have := hbound ld hcontra
    omega

/-- The tree of the C3 witness: two local defs of `x` and a local ref. -/
def exampleTree3 : PTree :=
  .node [] "" ⟨0, 0⟩ ⟨1, 0⟩
    [.node [("local-definition", "true")] "x" ⟨0, 4⟩ ⟨0, 5⟩ [],
     .node [("local-definition", "true")] "x" ⟨0, 20⟩ ⟨0, 21⟩ [],
     .node [("local-reference", "true")] "x" ⟨0, 26⟩ ⟨0, 27⟩ []]

/-- The state produced by walking `exampleTree3` from `exampleStore`. -/
def exampleState3 : CrawlState :=
  ⟨⟨1, ⟨2, 2, [⟨1, "f"⟩],
      [⟨0, 1, 0, 4, 1⟩, ⟨1, 1, 0, 20, 1⟩],
      [⟨1, 1, 0, 26, 1⟩], [], []⟩⟩, [], []⟩

/-- C3 witness: the walk of `exampleTree3` completes, and its one
inserted local ref points at an inserted local def of the same file. -/
theorem C3_witness :
    ∃ ld ∈ exampleState3.store.db.local_defs,
      ld ∉ exampleStore.db.local_defs ∧
      ld.id = (LocalRefRow.mk 1 1 0 26 1).definitionId ∧
      ld.fileId = exampleStore.fileId ∧
      (LocalRefRow.mk 1 1 0 26 1).fileId = exampleStore.fileId :=
  C3_ref_integrity exampleStore exampleTree3 exampleState3
    (by decide) (by rfl) ⟨1, 1, 0, 26, 1⟩ (by decide) (by decide)

/-! ## C2: the two-stage find_definition query -/

/-- Local referential integrity of a queried store — the invariant the
indexer establishes (C3). -/
def localFkOk (db : StoreDB) : Prop :=
  ∀ lr ∈ db.local_refs, ∃ ld ∈ db.local_defs, ld.id = lr.definitionId

theorem findSome?_of_find? {alpha beta : Type} (p : alpha → Bool)
    (f : alpha → Option beta) (hnone : ∀ x, p x = false → f x = none) :
    ∀ (l : List alpha) (a : alpha) (b : beta),
      l.find? p = some a → f a = some b → l.findSome? f = some b := by
  intro l
  induction l with
  | nil => intro a b h _; exact absurd h (by simp)
  | cons x xs ih =>
    intro a b h hb
    cases hp : p x with
    | true =>
      rw [List.find?_cons_of_pos xs hp] at h
      have hax : x = a := Option.some.inj h
      rw [List.findSome?_cons, hax, hb]
    | false =>
      rw [List.find?_cons_of_neg xs (by simp [hp])] at h
      rw [List.findSome?_cons, hnone x hp]
      exact ih a b h hb

theorem local_stage_of_covering (db : StoreDB) (fid : Nat) (pos : Point)
    (lr : LocalRefRow) (ld : LocalDefRow)
    (hfind : db.local_refs.find? (fun r => coversLocalRef r fid pos) = some lr)
    (hld : db.local_defs.find? (fun d => d.id == lr.definitionId) = some ld) :
    local_stage db fid pos = some (Point.mk ld.row ld.column, ld.length) := by
  unfold local_stage
  refine findSome?_of_find? _ _ ?_ _ lr _ hfind ?_
  · intro x hx
    simp only [hx, Bool.false_eq_true, if_false]
  · have hcov := List.find?_some hfind
    simp only [hcov, reduceIte, hld]
    rfl

theorem local_stage_none (db : StoreDB) (fid : Nat) (pos : Point)
    (h : ∀ lr ∈ db.local_refs, coversLocalRef lr fid pos = false) :
    local_stage db fid pos = none := by
  unfold local_stage
  rw [List.findSome?_eq_none_iff]
  intro x hx
  simp only [h x hx, Bool.false_eq_true, if_false]

/-- C2: whenever some local reference of the queried file covers the
queried position (same row, ref column ≤ column < ref column + length),
`find_definition` returns exactly one row — the path, position and
length of the local definition linked to the FIRST covering local ref
in database row order; only when no local reference covers the position
does the global stage run, returning at most 50 rows, each made from a
global definition whose name equals the name of a covering global
reference of the queried file. -/
theorem C2_two_stage (db : StoreDB) (path : String) (pos : Point) (fid : Nat)
    (hfid : files_lookup db path = some fid) (hfk : localFkOk db) :
    ((∃ lr ∈ db.local_refs, coversLocalRef lr fid pos = true) →
      ∃ lr ld,
        db.local_refs.find? (fun r => coversLocalRef r fid pos) = some lr
        ∧ db.local_defs.find? (fun d => d.id == lr.definitionId) = some ld
        ∧ find_definition db path pos
            = Except.ok [(path, Point.mk ld.row ld.column, ld.length)])
    ∧ ((∀ lr ∈ db.local_refs, coversLocalRef lr fid pos = false) →
      find_definition db path pos = Except.ok (global_stage db fid pos)
      ∧ (global_stage db fid pos).length ≤ 50
      ∧ ∀ row ∈ global_stage db fid pos,
          ∃ r ∈ db.refs, coversRef r fid pos = true
            ∧ ∃ d ∈ db.defs, d.name = r.name
              ∧ ∃ fr ∈ db.files, fr.id = d.fileId
                ∧ row = (fr.path, Point.mk d.nameStartRow d.nameStartColumn,
                    d.name.length)) := by
  constructor
  · rintro ⟨lr0, hmem, hcov⟩
    have h1 : (db.local_refs.find? fun r => coversLocalRef r fid pos).isSome := by
      rw [List.find?_isSome]
      exact ⟨lr0, hmem, hcov⟩
    obtain ⟨lr, hlr⟩ := Option.isSome_iff_exists.mp h1
    obtain ⟨ld0, hld0m, hld0⟩ := hfk lr (List.mem_of_find?_eq_some hlr)
    have h2 : (db.local_defs.find? fun d => d.id == lr.definitionId).isSome := by
      rw [List.find?_isSome]
      exact ⟨ld0, hld0m, beq_iff_eq.mpr hld0⟩
    obtain ⟨ld, hld⟩ := Option.isSome_iff_exists.mp h2
    refine ⟨lr, ld, hlr, hld, ?_⟩
    unfold find_definition
    rw [hfid]
    dsimp only []
    rw [local_stage_of_covering db fid pos lr ld hlr hld]
  · intro hnone
    refine ⟨?_, List.length_take_le 50 _, ?_⟩
    · unfold find_definition
      rw [hfid]
      dsimp only []
      rw [local_stage_none db fid pos hnone]
    · intro row hrow
      unfold global_stage at hrow
      have hrow1 := List.mem_of_mem_take hrow
      rw [List.mem_flatMap] at hrow1
      obtain ⟨r, hr, hrow2⟩ := hrow1
      cases hc : coversRef r fid pos with
      | false =>
        simp only [hc, Bool.false_eq_true, if_false] at hrow2
        exact absurd hrow2 (List.not_mem_nil row)
      | true =>
        simp only [hc, reduceIte] at hrow2
        rw [List.mem_flatMap] at hrow2
        obtain ⟨d, hd, hrow3⟩ := hrow2
        cases hn : (d.name == r.name) with
        | false =>
          simp only [hn, Bool.false_eq_true, if_false] at hrow3
          exact absurd hrow3 (List.not_mem_nil row)
        | true =>
          simp only [hn, reduceIte] at hrow3
          rw [List.mem_filterMap] at hrow3
          obtain ⟨fr, hfr, heq⟩ := hrow3
          cases hfi : (fr.id == d.fileId) with
          | false =>
            simp only [hfi, Bool.false_eq_true, if_false] at heq
            exact Option.noConfusion heq
          | true =>
            simp only [hfi, reduceIte] at heq
            exact ⟨r, hr, hc, d, hd, beq_iff_eq.mp hn, fr, hfr,
              beq_iff_eq.mp hfi, (Option.some.inj heq).symm⟩

/-- A store for the C2 witness: one file, one local def at (0,4), one
local ref at (0,6) linked to it. -/
def exampleQueryDB : StoreDB :=
  ⟨2, 1, [⟨1, "f"⟩], [⟨0, 1, 0, 4, 1⟩], [⟨1, 0, 0, 6, 1⟩], [], []⟩

/-- C2 witness: querying inside the covering local ref returns exactly
the linked definition's site. -/
theorem C2_witness :
    ∃ lr ld,
      exampleQueryDB.local_refs.find?
          (fun r => coversLocalRef r 1 ⟨0, 6⟩) = some lr
      ∧ exampleQueryDB.local_defs.find?
          (fun d => d.id == lr.definitionId) = some ld
      ∧ find_definition exampleQueryDB "f" ⟨0, 6⟩
          = Except.ok [("f", Point.mk ld.row ld.column, ld.length)] :=
  (C2_two_stage exampleQueryDB "f" ⟨0, 6⟩ 1 rfl
      (by unfold localFkOk; decide)).1
    ⟨⟨1, 0, 0, 6, 1⟩, by decide, by decide⟩

/-! ## C10: stack pops in leave_node versus pushes in enter_node -/

/-- The three stack-driving properties whose PRESENCE triggers a pop in
`leave_node`, while only the exact value "true" triggers a push in
`enter_node`. -/
def stackProps : List String := ["local-scope", "definition", "module"]

/-- Every stack property present on this bag has the exact value "true"
(the claim's precondition). -/
def goodValues (props : Props) : Bool :=
  stackProps.all fun p => !has_property props p || has_property_value props p "true"

mutual

/-- The claim's precondition over a whole tree. -/
def allTrueValues : PTree → Bool
  | .node props _ _ _ cs => goodValues props && allTrueValuesList cs

def allTrueValuesList : List PTree → Bool
  | [] => true
  | t :: ts => allTrueValues t && allTrueValuesList ts

end

/-- A node is balanced when each stack property it carries has the value
"true" AND the node has at least one child: the cursor loop enters every
non-root node but leaves only nodes with children, so only then does the
leave-side pop have a matching enter-side push. -/
def balancedNode (props : Props) (cs : List PTree) : Bool :=
  stackProps.all fun p =>
    !has_property props p ||
      (has_property_value props p "true" && !cs.isEmpty)

mutual

def balancedTree : PTree → Bool
  | .node props _ _ _ cs => balancedNode props cs && balancedTreeList cs

def balancedTreeList : List PTree → Bool
  | [] => true
  | t :: ts => balancedTree t && balancedTreeList ts

end

/-- The root carries none of the stack properties: the cursor loop
leaves the root (when it has children) without ever entering it. -/
def rootOk (props : Props) : Bool :=
  stackProps.all fun p => !has_property props p

theorem modifyTargetScope_isSome (stack : List Scope) (kind : Option String)
    (f : Scope → Scope) (h : stack ≠ []) :
    ∃ st, modifyTargetScope stack kind f = some st ∧ st.length = stack.length := by
  induction stack with
  | nil => exact absurd rfl h
  | cons sc rest ih =>
    cases rest with
    | nil => exact ⟨[f sc], rfl, rfl⟩
    | cons sc2 rest2 =>
      show ∃ st,
        (if (match kind with
             | none => true
             | some k => sc.kind == some k) = true then
          some (f sc :: sc2 :: rest2)
        else (modifyTargetScope (sc2 :: rest2) kind f).map (sc :: ·)) = some st
        ∧ st.length = (sc :: sc2 :: rest2).length
      cases hcond : (match kind with
          | none => true
          | some k => sc.kind == some k) with
      | true =>
        simp only [hcond, reduceIte]
        exact ⟨_, rfl, rfl⟩
      | false =>
        simp only [hcond, Bool.false_eq_true, if_false]
        obtain ⟨st2, hst2, hlen⟩ := ih (by simp)
        rw [hst2]
        exact ⟨sc :: st2, rfl, by simp [hlen]⟩

theorem enterLocalDef_total (props : Props) (n : String) (p : Point)
    (s : CrawlState) (hs : s.scope_stack ≠ []) :
    ∃ s1, enterLocalDef props n p s = Except.ok s1
      ∧ s1.scope_stack.length = s.scope_stack.length
      ∧ s1.module_stack = s.module_stack
      ∧ s1.store = s.store := by
  unfold enterLocalDef
  split
  · dsimp only []
    obtain ⟨st, hst, hlen⟩ := modifyTargetScope_isSome s.scope_stack
      (get_property props "scope-type")
      (fun sc =>
        if has_property props "local-is-hoisted" = true then
          { sc with hoisted_local_defs := hoistInsert sc.hoisted_local_defs n p }
        else
          { sc with local_defs := sc.local_defs ++ [(n, p)] }) hs
    rw [hst]
    exact ⟨_, rfl, hlen, rfl, rfl⟩
  · exact ⟨s, rfl, rfl, rfl, rfl⟩

theorem enterLocalRef_total (props : Props) (n : String) (p : Point)
    (s : CrawlState) (hs : s.scope_stack ≠ []) :
    ∃ s1, enterLocalRef props n p s = Except.ok s1
      ∧ s1.scope_stack.length = s.scope_stack.length
      ∧ s1.module_stack = s.module_stack
      ∧ s1.store = s.store := by
  unfold enterLocalRef
  split
  · obtain ⟨st, hst, hlen⟩ := modifyTargetScope_isSome s.scope_stack
      (get_property props "scope-type")
      (fun sc => { sc with local_refs := sc.local_refs ++ [(n, p)] }) hs
    rw [hst]
    exact ⟨_, rfl, hlen, rfl, rfl⟩
  · exact ⟨s, rfl, rfl, rfl, rfl⟩

theorem enterScope_shape (props : Props) (s : CrawlState) :
    (enterScope props s).scope_stack.length
      = (if has_property_value props "local-scope" "true" then
          s.scope_stack.length + 1 else s.scope_stack.length)
    ∧ (enterScope props s).module_stack = s.module_stack := by
  unfold enterScope
  split
  · rename_i hcond
    simp [hcond]
  · rename_i hcond
    simp [hcond]

theorem enterModule_shape (props : Props) (s : CrawlState) :
    (enterModule props s).module_stack
      = (if has_property_value props "module" "true" then
          Module.fresh :: s.module_stack else s.module_stack)
    ∧ (enterModule props s).scope_stack = s.scope_stack := by
  unfold enterModule
  split
  · rename_i hcond
    simp [hcond]
  · rename_i hcond
    simp [hcond]

theorem enterModulePart_total (props : Props) (n : String) (s : CrawlState)
    (m : Module) (mt : List Module) (hm : s.module_stack = m :: mt) :
    ∃ m1, enterModulePart props n s
        = Except.ok { s with module_stack := m1 :: mt }
      ∧ m1.pending_definition_stack = m.pending_definition_stack := by
  unfold enterModulePart
  split
  · rw [hm]
    exact ⟨{ m with name := some n }, rfl, rfl⟩
  · refine ⟨m, ?_, rfl⟩
    show Except.ok s = _
    rw [show s = { s with module_stack := m :: mt } from by rw [← hm]]

theorem enterDefinition_total (props : Props) (p ep : Point) (s : CrawlState)
    (m : Module) (mt : List Module) (hm : s.module_stack = m :: mt) :
    ∃ m1, enterDefinition props p ep s
        = Except.ok { s with module_stack := m1 :: mt }
      ∧ m1.pending_definition_stack.length
          = m.pending_definition_stack.length
            + (if has_property_value props "definition" "true" then 1 else 0) := by
  unfold enterDefinition
  split
  · rename_i hcond
    dsimp only []
    rw [hm]
    refine ⟨_, rfl, ?_⟩
    simp [hcond]
  · rename_i hcond
    refine ⟨m, ?_, by simp [hcond]⟩
    show Except.ok s = _
    rw [show s = { s with module_stack := m :: mt } from by rw [← hm]]

theorem enterDefinitionPart_cases (props : Props) (n : String) (p : Point)
    (s : CrawlState) (m : Module) (mt : List Module)
    (hm : s.module_stack = m :: mt) :
    enterDefinitionPart props n p s = Except.error Panic.topDefinition ∨
    ∃ m1, enterDefinitionPart props n p s
        = Except.ok { s with module_stack := m1 :: mt }
      ∧ m1.pending_definition_stack.length
          = m.pending_definition_stack.length := by
  unfold enterDefinitionPart
  split
  · rw [hm]
    dsimp only []
    cases hp : m.pending_definition_stack with
    | nil => exact Or.inl rfl
    | cons d ds =>
      refine Or.inr ⟨_, rfl, ?_⟩
      simp [hp]
  · dsimp only []
    split
    · rw [hm]
      dsimp only []
      cases hp : m.pending_definition_stack with
      | nil => exact Or.inl rfl
      | cons d ds =>
        refine Or.inr ⟨_, rfl, ?_⟩
        simp [hp]
    · refine Or.inr ⟨m, ?_, rfl⟩
      show Except.ok s = _
      rw [show s = { s with module_stack := m :: mt } from by rw [← hm]]
  · refine Or.inr ⟨m, ?_, rfl⟩
    show Except.ok s = _
    rw [show s = { s with module_stack := m :: mt } from by rw [← hm]]

theorem enterReference_stacks (props : Props) (n : String) (p : Point)
    (s : CrawlState) :
    (enterReference props n p s).scope_stack = s.scope_stack
    ∧ (enterReference props n p s).module_stack = s.module_stack := by
  unfold enterReference
  split <;> exact ⟨rfl, rfl⟩

/-- The effect of `enter_node` on the two stacks: either the
`definition-part` unwrap panics, or the node pushes exactly the scopes
and modules its "true"-valued properties call for. -/
theorem enter_node_stacks (props : Props) (text : String) (sp ep : Point)
    (s : CrawlState) (m : Module) (mt : List Module)
    (hs : s.scope_stack ≠ []) (hm : s.module_stack = m :: mt) :
    enter_node props text sp ep s = Except.error Panic.topDefinition ∨
    ∃ s', enter_node props text sp ep s = Except.ok s'
      ∧ s'.scope_stack.length
          = (if has_property_value props "local-scope" "true" then
              s.scope_stack.length + 1 else s.scope_stack.length)
      ∧ (if has_property_value props "module" "true" then
          ∃ mE, s'.module_stack = mE :: m :: mt
            ∧ mE.pending_definition_stack.length
                = (if has_property_value props "definition" "true" then 1 else 0)
        else
          ∃ mE, s'.module_stack = mE :: mt
            ∧ mE.pending_definition_stack.length
                = m.pending_definition_stack.length
                  + (if has_property_value props "definition" "true" then 1 else 0)) := by
  obtain ⟨s1, e1, hl1, hm1, _⟩ := enterLocalDef_total props text sp s hs
  have hs1 : s1.scope_stack ≠ [] := by
    intro hc
    rw [hc] at hl1
    exact hs (List.length_eq_zero.mp hl1.symm)
  obtain ⟨s2, e2, hl2, hm2, _⟩ := enterLocalRef_total props text sp s1 hs1
  obtain ⟨hl3, hm3⟩ := enterScope_shape props s2
  obtain ⟨hm4, hl4⟩ := enterModule_shape props (enterScope props s2)
  by_cases hmod : has_property_value props "module" "true" = true
  · have hm4' : (enterModule props (enterScope props s2)).module_stack
        = Module.fresh :: m :: mt := by
      rw [hm4, if_pos hmod, hm3, hm2, hm1, hm]
    obtain ⟨m5, e5, hp5⟩ := enterModulePart_total props text
      (enterModule props (enterScope props s2)) Module.fresh (m :: mt) hm4'
    obtain ⟨m6, e6, hp6⟩ := enterDefinition_total props sp ep
      { enterModule props (enterScope props s2) with
        module_stack := m5 :: m :: mt } m5 (m :: mt) rfl
    rcases enterDefinitionPart_cases props text sp
        { enterModule props (enterScope props s2) with
          module_stack := m6 :: m :: mt } m6 (m :: mt) rfl with e7 | ⟨m7, e7, hp7⟩
    · left
      unfold enter_node
      simp only [e1, bind_ok, e2, e5, e6, e7, bind_error]
    · right
      obtain ⟨hrs, hrm⟩ := enterReference_stacks props text sp
        { enterModule props (enterScope props s2) with
          module_stack := m7 :: m :: mt }
      refine ⟨enterReference props text sp
        { enterModule props (enterScope props s2) with
          module_stack := m7 :: m :: mt }, ?_, ?_, ?_⟩
      · unfold enter_node
        simp only [e1, bind_ok, e2, e5, e6, e7]
        rfl
      · rw [hrs]
        show (enterModule props (enterScope props s2)).scope_stack.length = _
        rw [hl4, hl3, hl2, hl1]
      · rw [if_pos hmod, hrm]
        refine ⟨m7, rfl, ?_⟩
        rw [hp7, hp6]
        have h0 : m5.pending_definition_stack.length = 0 := by
          rw [hp5]
          rfl
        rw [h0, Nat.zero_add]
  · have hm4' : (enterModule props (enterScope props s2)).module_stack
        = m :: mt := by
      rw [hm4, if_neg hmod, hm3, hm2, hm1, hm]
    obtain ⟨m5, e5, hp5⟩ := enterModulePart_total props text
      (enterModule props (enterScope props s2)) m mt hm4'
    obtain ⟨m6, e6, hp6⟩ := enterDefinition_total props sp ep
      { enterModule props (enterScope props s2) with
        module_stack := m5 :: mt } m5 mt rfl
    rcases enterDefinitionPart_cases props text sp
        { enterModule props (enterScope props s2) with
          module_stack := m6 :: mt } m6 mt rfl with e7 | ⟨m7, e7, hp7⟩
    · left
      unfold enter_node
      simp only [e1, bind_ok, e2, e5, e6, e7, bind_error]
    · right
      obtain ⟨hrs, hrm⟩ := enterReference_stacks props text sp
        { enterModule props (enterScope props s2) with
          module_stack := m7 :: mt }
      refine ⟨enterReference props text sp
        { enterModule props (enterScope props s2) with
          module_stack := m7 :: mt }, ?_, ?_, ?_⟩
      · unfold enter_node
        simp only [e1, bind_ok, e2, e5, e6, e7]
        rfl
      · rw [hrs]
        show (enterModule props (enterScope props s2)).scope_stack.length = _
        rw [hl4, hl3, hl2, hl1]
      · rw [if_neg hmod, hrm]
        refine ⟨m7, rfl, ?_⟩
        rw [hp7, hp6]
        have h5 : m5.pending_definition_stack.length
            = m.pending_definition_stack.length := by
          rw [hp5]
        rw [h5]

theorem processRef_some_parent (dIds : List ((String × Point) × Nat))
    (hIds : List (String × Nat)) (sf : StoreFile) (p : Scope)
    (r : String × Point) :
    ∃ sf2 p2, processRef dIds hIds sf (some p) r = (sf2, some p2) := by
  unfold processRef
  cases scanLocalDefs dIds r none with
  | some id => exact ⟨_, _, rfl⟩
  | none =>
    cases List.lookup r.1 hIds with
    | some id => exact ⟨_, _, rfl⟩
    | none => exact ⟨_, _, rfl⟩

theorem foldl_resolveStep_some (dIds : List ((String × Point) × Nat))
    (hIds : List (String × Nat)) :
    ∀ (refs : List (String × Point)) (sf : StoreFile) (p : Scope),
      ∃ sf2 p2, refs.foldl (resolveStep dIds hIds) (sf, some p) = (sf2, some p2) := by
  intro refs
  induction refs with
  | nil => intro sf p; exact ⟨sf, p, rfl⟩
  | cons r rs ih =>
    intro sf p
    obtain ⟨sf2, p2, h⟩ := processRef_some_parent dIds hIds sf p r
    rw [List.foldl_cons]
    show ∃ _ _, rs.foldl _ (processRef dIds hIds sf (some p) r) = _
    rw [h]
    exact ih sf2 p2

/-- `pop_scope` on a non-empty scope stack succeeds, shortens the scope
stack by one and leaves the module stack alone. -/
theorem pop_scope_shape (s : CrawlState) (sc : Scope) (rest : List Scope)
    (h : s.scope_stack = sc :: rest) :
    ∃ s2, pop_scope s = Except.ok s2
      ∧ s2.scope_stack.length = rest.length
      ∧ s2.module_stack = s.module_stack := by
  unfold pop_scope
  rw [h]
  dsimp only []
  cases rest with
  | nil =>
    simp only [List.head?, foldl_processRef_none]
    exact ⟨_, rfl, rfl, rfl⟩
  | cons p0 rt =>
    obtain ⟨sf2, p2, hf⟩ := foldl_resolveStep_some
      (sc.local_defs.zip (sc.local_defs.foldl flushDefStep (s.store, [])).2)
      (sc.hoisted_local_defs.foldl flushHoistStep
        ((sc.local_defs.foldl flushDefStep (s.store, [])).1, [])).2
      sc.local_refs
      (sc.hoisted_local_defs.foldl flushHoistStep
        ((sc.local_defs.foldl flushDefStep (s.store, [])).1, [])).1
      p0
    simp only [List.head?, hf]
    exact ⟨_, rfl, by simp, rfl⟩

/-- `pop_definition` on a module with a pending definition succeeds and
shortens the pending stack by one. -/
theorem pop_definition_shape (s : CrawlState) (m : Module) (mt : List Module)
    (d : Definition) (ds : List Definition)
    (hm : s.module_stack = m :: mt) (hp : m.pending_definition_stack = d :: ds) :
    ∃ m2, pop_definition s = Except.ok { s with module_stack := m2 :: mt }
      ∧ m2.pending_definition_stack = ds := by
  unfold pop_definition
  rw [hm]
  dsimp only []
  rw [hp]
  exact ⟨_, rfl, rfl⟩

/-- `pop_module` on a non-empty module stack succeeds, pops one module
and leaves the scope stack alone. -/
theorem pop_module_shape (s : CrawlState) (m : Module) (mt : List Module)
    (hm : s.module_stack = m :: mt) :
    ∃ sf2, pop_module s = Except.ok { s with store := sf2, module_stack := mt } := by
  unfold pop_module
  rw [hm]
  dsimp only []
  exact ⟨_, rfl⟩

theorem hpv_imp_hp (props : Props) (p v : String)
    (h : has_property_value props p v = true) : has_property props p = true := by
  unfold has_property_value at h
  unfold has_property
  cases hg : get_property props p with
  | none =>
    rw [hg] at h
    exact absurd h (by simp)
  | some w => simp [hg]

theorem balancedNode_part (props : Props) (cs : List PTree) (p : String)
    (h : balancedNode props cs = true) (hp : p ∈ stackProps)
    (hhas : has_property props p = true) :
    has_property_value props p "true" = true ∧ cs ≠ [] := by
  unfold balancedNode at h
  rw [List.all_eq_true] at h
  have h2 := h p hp
  rw [hhas] at h2
  simp only [Bool.not_true, Bool.false_or, Bool.and_eq_true] at h2
  refine ⟨h2.1, ?_⟩
  intro hc
  rw [hc] at h2
  exact absurd h2.2 (by decide)

/-- Under `balancedNode`, presence of a stack property coincides with it
having the value "true". -/
theorem balanced_value_eq (props : Props) (cs : List PTree) (p : String)
    (h : balancedNode props cs = true) (hp : p ∈ stackProps) :
    has_property_value props p "true" = has_property props p := by
  cases hhas : has_property props p with
  | true => exact (balancedNode_part props cs p h hp hhas).1
  | false =>
    cases hv : has_property_value props p "true" with
    | false => rfl
    | true => rw [hpv_imp_hp props p "true" hv] at hhas; exact hhas

theorem leaveScope_step (props : Props) (s : CrawlState) (n : Nat)
    (hlen : s.scope_stack.length
      = (if has_property props "local-scope" then n + 1 else n)) :
    ∃ s2, leaveScope props s = Except.ok s2 ∧ s2.scope_stack.length = n
      ∧ s2.module_stack = s.module_stack := by
  unfold leaveScope
  cases hp : has_property props "local-scope" with
  | false =>
    rw [hp] at hlen
    simp only [Bool.false_eq_true, if_false] at hlen ⊢
    exact ⟨s, rfl, hlen, rfl⟩
  | true =>
    rw [hp] at hlen
    simp only [if_pos] at hlen
    simp only [reduceIte]
    cases hss : s.scope_stack with
    | nil =>
      rw [hss] at hlen
      exact absurd hlen (by simp)
    | cons sc rest =>
      obtain ⟨s2, e2, hl, hmm⟩ := pop_scope_shape s sc rest hss
      refine ⟨s2, e2, ?_, hmm⟩
      rw [hl]
      rw [hss] at hlen
      simp only [List.length_cons] at hlen
      omega

theorem leaveDefinition_step (props : Props) (s : CrawlState) (mhd : Module)
    (mtl : List Module) (k : Nat) (hm : s.module_stack = mhd :: mtl)
    (hlen : mhd.pending_definition_stack.length
      = (if has_property props "definition" then k + 1 else k)) :
    ∃ m2, leaveDefinition props s
        = Except.ok { s with module_stack := m2 :: mtl }
      ∧ m2.pending_definition_stack.length = k := by
  unfold leaveDefinition
  cases hp : has_property props "definition" with
  | false =>
    rw [hp] at hlen
    simp only [Bool.false_eq_true, if_false] at hlen ⊢
    refine ⟨mhd, ?_, hlen⟩
    show Except.ok s = _
    rw [show s = { s with module_stack := mhd :: mtl } from by rw [← hm]]
  | true =>
    rw [hp] at hlen
    simp only [if_pos] at hlen
    simp only [reduceIte]
    cases hpd : mhd.pending_definition_stack with
    | nil =>
      rw [hpd] at hlen
      exact absurd hlen (by simp)
    | cons d ds =>
      obtain ⟨m2, e2, hdsp⟩ := pop_definition_shape s mhd mtl d ds hm hpd
      refine ⟨m2, e2, ?_⟩
      rw [hdsp]
      rw [hpd] at hlen
      simp only [List.length_cons] at hlen
      omega

theorem leaveModule_step (props : Props) (s : CrawlState) (mhd : Module)
    (mtl : List Module) (hm : s.module_stack = mhd :: mtl) :
    ∃ s2, leaveModule props s = Except.ok s2
      ∧ s2.scope_stack = s.scope_stack
      ∧ s2.module_stack
          = (if has_property props "module" then mtl else mhd :: mtl) := by
  unfold leaveModule
  cases hp : has_property props "module" with
  | false =>
    simp only [Bool.false_eq_true, if_false]
    exact ⟨s, rfl, rfl, by rw [hm]⟩
  | true =>
    simp only [reduceIte]
    obtain ⟨sf2, e2⟩ := pop_module_shape s mhd mtl hm
    exact ⟨_, e2, rfl, rfl⟩

mutual

/-- Walking a balanced subtree from non-empty stacks either hits the
`definition-part` unwrap or succeeds with the scope-stack length, the
module-stack tail and the top module's pending-stack length restored. -/
theorem visit_balanced (t : PTree) (s : CrawlState)
    (hb : balancedTree t = true)
    (hs : s.scope_stack ≠ []) (hm : s.module_stack ≠ []) :
    visit t s = Except.error Panic.topDefinition ∨
    ∃ s', visit t s = Except.ok s'
      ∧ s'.scope_stack.length = s.scope_stack.length
      ∧ ∀ m mt, s.module_stack = m :: mt →
          ∃ m', s'.module_stack = m' :: mt
            ∧ m'.pending_definition_stack.length
                = m.pending_definition_stack.length := by
  cases t with
  | node props text sp ep children =>
    have hb2 := hb
    unfold balancedTree at hb2
    simp only [Bool.and_eq_true] at hb2
    obtain ⟨hbn, hbl⟩ := hb2
    cases hms : s.module_stack with
    | nil => exact absurd hms hm
    | cons m mt =>
    rcases enter_node_stacks props text sp ep s m mt hs hms with herr | ⟨s1, e1, hlen1, hmod1⟩
    · left
      unfold visit
      rw [herr, bind_error]
    · have hEsc := balanced_value_eq props children "local-scope" hbn
        (by simp [stackProps])
      have hEdf := balanced_value_eq props children "definition" hbn
        (by simp [stackProps])
      have hEmd := balanced_value_eq props children "module" hbn
        (by simp [stackProps])
      rw [hEsc] at hlen1
      rw [hEmd, hEdf] at hmod1
      cases children with
      | nil =>
        have hnsc : has_property props "local-scope" = false := by
          cases hx : has_property props "local-scope" with
          | false => rfl
          | true => exact absurd (balancedNode_part props [] "local-scope" hbn
              (by simp [stackProps]) hx).2 (by simp)
        have hndf : has_property props "definition" = false := by
          cases hx : has_property props "definition" with
          | false => rfl
          | true => exact absurd (balancedNode_part props [] "definition" hbn
              (by simp [stackProps]) hx).2 (by simp)
        have hnmd : has_property props "module" = false := by
          cases hx : has_property props "module" with
          | false => rfl
          | true => exact absurd (balancedNode_part props [] "module" hbn
              (by simp [stackProps]) hx).2 (by simp)
        right
        refine ⟨s1, ?_, ?_, ?_⟩
        · unfold visit
          simp only [e1, bind_ok]
          rfl
        · rw [hlen1, hnsc]
          simp
        · intro m0 mt0 hm0
          injection hm0 with hm0a hm0b
          rw [hnmd] at hmod1
          simp only [Bool.false_eq_true, if_false] at hmod1
          obtain ⟨mE, hE, hpE⟩ := hmod1
          refine ⟨mE, by rw [hE, hm0b], ?_⟩
          rw [hpE, hndf]
          simp only [Bool.false_eq_true, if_false, Nat.add_zero]
          rw [hm0a]
      | cons c cs =>
        have hbl2 := hbl
        unfold balancedTreeList at hbl2
        simp only [Bool.and_eq_true] at hbl2
        obtain ⟨hbc, hbcs⟩ := hbl2
        have hs1 : s1.scope_stack ≠ [] := by
          have hpos : 0 < s.scope_stack.length := List.length_pos.mpr hs
          have : 0 < s1.scope_stack.length := by
            rw [hlen1]
            split <;> omega
          exact List.length_pos.mp this
        have hmodG : ∃ mE, s1.module_stack
              = mE :: (if has_property props "module" then m :: mt else mt)
            ∧ mE.pending_definition_stack.length
                = (if has_property props "module" then 0
                    else m.pending_definition_stack.length)
                  + (if has_property props "definition" then 1 else 0) := by
          cases hpm : has_property props "module" with
          | true =>
            rw [hpm] at hmod1
            simp only [reduceIte] at hmod1 ⊢
            obtain ⟨mE, hE, hpE⟩ := hmod1
            exact ⟨mE, hE, by rw [hpE]; omega⟩
          | false =>
            rw [hpm] at hmod1
            simp only [Bool.false_eq_true, if_false] at hmod1 ⊢
            exact hmod1
        obtain ⟨mE, hE, hpE⟩ := hmodG
        have hm1 : s1.module_stack ≠ [] := by
          rw [hE]
          simp
        rcases visit_balanced c s1 hbc hs1 hm1 with herr2 | ⟨s2, e2, hlen2, hmod2⟩
        · left
          unfold visit
          simp only [e1, bind_ok]
          rw [herr2, bind_error]
        · obtain ⟨mE2, hE2, hpE2⟩ := hmod2 mE _ hE
          have hs2 : s2.scope_stack ≠ [] := by
            intro hc
            rw [hc] at hlen2
            exact hs1 (List.length_eq_zero.mp hlen2.symm)
          have hm2 : s2.module_stack ≠ [] := by
            rw [hE2]
            simp
          rcases visitList_balanced cs s2 hbcs hs2 hm2 with herr3 | ⟨s3, e3, hlen3, hmod3⟩
          · left
            unfold visit
            simp only [e1, bind_ok]
            simp only [e2, bind_ok, herr3, bind_error]
          · obtain ⟨mE3, hE3, hpE3⟩ := hmod3 mE2 _ hE2
            have hlenS3 : s3.scope_stack.length
                = (if has_property props "local-scope" then
                    s.scope_stack.length + 1 else s.scope_stack.length) := by
              rw [hlen3, hlen2, hlen1]
            obtain ⟨s4, e4, hlen4, hmm4⟩ :=
              leaveScope_step props s3 s.scope_stack.length hlenS3
            have hm4 : s4.module_stack
                = mE3 :: (if has_property props "module" then m :: mt else mt) := by
              rw [hmm4, hE3]
            have hpE3b : mE3.pending_definition_stack.length
                = (if has_property props "module" then 0
                    else m.pending_definition_stack.length)
                  + (if has_property props "definition" then 1 else 0) := by
              rw [hpE3, hpE2, hpE]
            obtain ⟨m5, e5, hp5⟩ := leaveDefinition_step props s4 mE3 _
              ((if has_property props "module" then 0
                else m.pending_definition_stack.length)) hm4
              (by rw [hpE3b]
                  cases hdf : has_property props "definition" <;> simp)
            obtain ⟨s6, e6, hsc6, hmd6⟩ := leaveModule_step props
              { s4 with module_stack :=
                  m5 :: (if has_property props "module" then m :: mt else mt) }
              m5 _ rfl
            right
            refine ⟨s6, ?_, ?_, ?_⟩
            · unfold visit
              simp only [e1, bind_ok]
              simp only [e2, bind_ok, e3, bind_ok]
              unfold leave_node
              simp only [e4, bind_ok, e5, bind_ok, e6]
            · rw [hsc6]
              show s4.scope_stack.length = _
              rw [hlen4]
            · intro m0 mt0 hm0
              injection hm0 with hm0a hm0b
              cases hpm : has_property props "module" with
              | true =>
                simp only [hpm, reduceIte] at hmd6
                refine ⟨m, by rw [hmd6, hm0b], by rw [hm0a]⟩
              | false =>
                simp only [hpm, Bool.false_eq_true, if_false] at hmd6
                refine ⟨m5, by rw [hmd6, hm0b], ?_⟩
                rw [hp5]
                simp only [hpm, Bool.false_eq_true, if_false]
                rw [hm0a]

theorem visitList_balanced (ts : List PTree) (s : CrawlState)
    (hb : balancedTreeList ts = true)
    (hs : s.scope_stack ≠ []) (hm : s.module_stack ≠ []) :
    visitList ts s = Except.error Panic.topDefinition ∨
    ∃ s', visitList ts s = Except.ok s'
      ∧ s'.scope_stack.length = s.scope_stack.length
      ∧ ∀ m mt, s.module_stack = m :: mt →
          ∃ m', s'.module_stack = m' :: mt
            ∧ m'.pending_definition_stack.length
                = m.pending_definition_stack.length := by
  cases ts with
  | nil =>
    right
    refine ⟨s, ?_, rfl, ?_⟩
    · unfold visitList
      rfl
    · intro m mt hm0
      exact ⟨m, hm0, rfl⟩
  | cons t rest =>
    have hb2 := hb
    unfold balancedTreeList at hb2
    simp only [Bool.and_eq_true] at hb2
    obtain ⟨hbt, hbr⟩ := hb2
    rcases visit_balanced t s hbt hs hm with herr | ⟨s1, e1, hlen1, hmod1⟩
    · left
      unfold visitList
      rw [herr, bind_error]
    · have hs1 : s1.scope_stack ≠ [] := by
        intro hc
        rw [hc] at hlen1
        exact hs (List.length_eq_zero.mp hlen1.symm)
      have hm1 : s1.module_stack ≠ [] := by
        cases hms : s.module_stack with
        | nil => exact absurd hms hm
        | cons m mt =>
          obtain ⟨m1, h1, _⟩ := hmod1 m mt hms
          rw [h1]
          simp
      rcases visitList_balanced rest s1 hbr hs1 hm1 with herr2 | ⟨s2, e2, hlen2, hmod2⟩
      · left
        unfold visitList
        simp only [e1, bind_ok, herr2]
      · right
        refine ⟨s2, ?_, ?_, ?_⟩
        · unfold visitList
          simp only [e1, bind_ok, e2]
        · rw [hlen2, hlen1]
        · intro m mt hm0
          obtain ⟨m1, h1, hp1⟩ := hmod1 m mt hm0
          obtain ⟨m2, h2, hp2⟩ := hmod2 m1 mt h1
          exact ⟨m2, h2, by rw [hp2, hp1]⟩

end

/-- A walk of a tree whose root carries no stack property and whose
subtrees are balanced can only fail at the `definition-part` unwrap:
no pop ever panics. -/
theorem crawl_tree_balanced (sf : StoreFile) (props : Props) (text : String)
    (sp ep : Point) (children : List PTree) (e : Panic)
    (hroot : rootOk props = true) (hbal : balancedTreeList children = true)
    (h : crawl_tree sf (PTree.node props text sp ep children) = Except.error e) :
    e = Panic.topDefinition := by
  have hr : ∀ p ∈ stackProps, has_property props p = false := by
    intro p hp
    have h2 := hroot
    unfold rootOk at h2
    rw [List.all_eq_true] at h2
    have h3 := h2 p hp
    simp at h3
    exact h3
  have hrs : has_property props "local-scope" = false := hr _ (by simp [stackProps])
  have hrd : has_property props "definition" = false := hr _ (by simp [stackProps])
  have hrm : has_property props "module" = false := hr _ (by simp [stackProps])
  unfold crawl_tree at h
  cases children with
  | nil =>
    dsimp only [] at h
    simp only [pure_bind_ok] at h
    obtain ⟨sf2, e1⟩ := pop_module_shape
      (⟨sf, [Scope.fresh none], [Module.fresh]⟩ : CrawlState) Module.fresh [] rfl
    simp only [e1, bind_ok] at h
    obtain ⟨s2, e2, _, _⟩ := pop_scope_shape
      { store := sf2, scope_stack := [Scope.fresh none], module_stack := [] }
      (Scope.fresh none) [] rfl
    rw [e2] at h
    exact absurd h (by simp)
  | cons c cs =>
    dsimp only [] at h
    have hbal2 := hbal
    unfold balancedTreeList at hbal2
    simp only [Bool.and_eq_true] at hbal2
    obtain ⟨hbc, hbcs⟩ := hbal2
    rcases visit_balanced c (⟨sf, [Scope.fresh none], [Module.fresh]⟩ : CrawlState)
        hbc (by simp) (by simp) with herr | ⟨s1, eok, hlen1, hmod1⟩
    · simp only [herr, bind_error] at h
      exact (Except.error.inj h).symm
    · simp only [eok, bind_ok] at h
      have hs1 : s1.scope_stack ≠ [] := by
        intro hc
        rw [hc] at hlen1
        exact absurd hlen1.symm (by simp)
      obtain ⟨m1, hm1eq, hp1⟩ := hmod1 Module.fresh [] rfl
      have hm1 : s1.module_stack ≠ [] := by
        rw [hm1eq]
        simp
      rcases visitList_balanced cs s1 hbcs hs1 hm1 with herr2 | ⟨s2, eok2, hlen2, hmod2⟩
      · simp only [herr2, bind_error] at h
        exact (Except.error.inj h).symm
      · simp only [eok2, bind_ok] at h
        have hlv : leave_node props s2 = Except.ok s2 := by
          unfold leave_node leaveScope leaveDefinition leaveModule
          rw [hrs, hrd, hrm]
          rfl
        simp only [hlv, bind_ok] at h
        obtain ⟨m2, hm2eq, hp2⟩ := hmod2 m1 [] hm1eq
        obtain ⟨sf3, e3⟩ := pop_module_shape s2 m2 [] hm2eq
        simp only [e3, bind_ok] at h
        have hl2 : s2.scope_stack.length = 1 := by
          rw [hlen2, hlen1]
          rfl
        obtain ⟨sc, hsc⟩ := List.length_eq_one.mp hl2
        obtain ⟨s4, e4, _, _⟩ := pop_scope_shape
          { s2 with store := sf3, module_stack := [] } sc [] hsc
        rw [e4] at h
        exact absurd h (by simp)

/-- The tree of the C10 counterexample: the root carries
`definition="true"` (value "true" everywhere) and has a child, so the
cursor loop leaves the root without having entered it and
`pop_definition` pops an empty pending stack. -/
def exampleTree10 : PTree :=
  .node [("definition", "true")] "" ⟨0, 0⟩ ⟨1, 0⟩
    [.node [] "" ⟨0, 1⟩ ⟨0, 2⟩ []]

/-- C10 counterexample: every occurrence of the three stack properties
in this tree has the exact value "true", yet the walk panics at the
`pop_definition` unwrap — the claimed precondition does not make the
leave-side pops safe. -/
theorem C10_counterexample :
    allTrueValues exampleTree10 = true
    ∧ crawl_tree exampleStore exampleTree10 = Except.error Panic.popDefinition := by
  constructor
  · rfl
  · rfl

/-- The reachability tree for the second half of C10: an inner node with
`local-scope="false"` is not pushed by `enter_node` (which demands the
exact value "true") but is popped by `leave_node` (which checks only
presence), so the file scope is popped early and the final pop panics. -/
def exampleTree10bad : PTree :=
  .node [] "" ⟨0, 0⟩ ⟨2, 0⟩
    [.node [("local-scope", "false")] "" ⟨0, 1⟩ ⟨1, 0⟩
      [.node [] "" ⟨0, 2⟩ ⟨0, 3⟩ []]]

/-- C10 (amended): if the properties local-scope/definition/module occur
only with value "true", only on nodes with at least one child, and not
on the root, then every pop performed by the walk matches its push and
never panics — the only possible panic is the `definition-part` unwrap
(`topDefinition`); and for a node carrying such a property with any
other value, `enter_node` does not push while `leave_node` still pops,
so a pop panic is reachable. -/
theorem C10_pop_discipline :
    (∀ (sf : StoreFile) (props : Props) (text : String) (sp ep : Point)
        (children : List PTree) (e : Panic),
        rootOk props = true → balancedTreeList children = true →
        crawl_tree sf (PTree.node props text sp ep children) = Except.error e →
        e = Panic.topDefinition)
    ∧ crawl_tree exampleStore exampleTree10bad = Except.error Panic.popScope := by
  constructor
  · intro sf props text sp ep children e h1 h2 h3
    exact crawl_tree_balanced sf props text sp ep children e h1 h2 h3
  · rfl

/-- C10 witness: a scope node with a child, under a bare root. -/
theorem C10_witness :
    rootOk [] = true
    ∧ balancedTreeList
        [PTree.node [("local-scope", "true")] "" ⟨0, 1⟩ ⟨1, 0⟩
          [PTree.node [] "" ⟨0, 2⟩ ⟨0, 3⟩ []]] = true
    ∧ ∀ e : Panic,
        crawl_tree exampleStore (PTree.node [] "" ⟨0, 0⟩ ⟨2, 0⟩
          [PTree.node [("local-scope", "true")] "" ⟨0, 1⟩ ⟨1, 0⟩
            [PTree.node [] "" ⟨0, 2⟩ ⟨0, 3⟩ []]]) = Except.error e →
        e = Panic.topDefinition :=
  ⟨rfl, rfl, fun e h =>
    C10_pop_discipline.1 exampleStore [] "" ⟨0, 0⟩ ⟨2, 0⟩
      [PTree.node [("local-scope", "true")] "" ⟨0, 1⟩ ⟨1, 0⟩
        [PTree.node [] "" ⟨0, 2⟩ ⟨0, 3⟩ []]] e rfl rfl h⟩

/-! ## C8: files with non-UTF-8 contents -/

/-- C8 (amended): for a file with a recognized extension whose contents
are not valid UTF-8, the per-file pipeline fails with an IO error before
the store transaction is opened (so it records no facts), and the worker
surfaces that error and stops — it does not continue with the remaining
files. -/
theorem C8_non_utf8_errors (recognized : String → Bool)
    (parse : List Nat → PTree) (db : StoreDB) (path : String) (ext : String)
    (contents : List Nat) (fs : List SourceFile)
    (hrec : recognized ext = true) (hutf : validUtf8 contents = false) :
    crawl_file recognized parse db ⟨path, some ext, contents⟩
        = Except.ok (Except.error CrawlError.ioFailure)
    ∧ crawl_path recognized parse db (⟨path, some ext, contents⟩ :: fs)
        = Except.ok (Except.error CrawlError.ioFailure) := by
  have h1 : crawl_file recognized parse db ⟨path, some ext, contents⟩
      = Except.ok (Except.error CrawlError.ioFailure) := by
    unfold crawl_file
    dsimp only []
    simp only [hrec, reduceIte, hutf, Bool.false_eq_true, if_false]
  refine ⟨h1, ?_⟩
  unfold crawl_path
  rw [h1]

/-- A file whose byte contents are not valid UTF-8. -/
def exampleBadFile : SourceFile := ⟨"b.x", some "x", [255]⟩

/-- A valid-UTF-8 file, queued after the bad one. -/
def exampleGoodFile : SourceFile := ⟨"g.x", some "x", [104, 105]⟩

/-- C8 counterexample: the claim says a recognized non-UTF-8 file is
skipped with no error and indexing of the remaining files continues; the
pipeline instead returns an IO error for it, and `crawl_path` stops with
that error before reaching the next file. -/
theorem C8_counterexample :
    crawl_file (fun _ => true) (fun _ => PTree.node [] "" ⟨0, 0⟩ ⟨0, 0⟩ [])
        emptyStoreDB exampleBadFile = Except.ok (Except.error CrawlError.ioFailure)
    ∧ crawl_file (fun _ => true) (fun _ => PTree.node [] "" ⟨0, 0⟩ ⟨0, 0⟩ [])
        emptyStoreDB exampleBadFile ≠ Except.ok (Except.ok emptyStoreDB)
    ∧ crawl_path (fun _ => true) (fun _ => PTree.node [] "" ⟨0, 0⟩ ⟨0, 0⟩ [])
        emptyStoreDB [exampleBadFile, exampleGoodFile]
        = Except.ok (Except.error CrawlError.ioFailure) := by
  refine ⟨rfl, ?_, rfl⟩
  intro h
  exact Except.noConfusion (Except.ok.inj h)

/-- C8 witness: a lone truncated two-byte sequence. -/
theorem C8_witness :
    crawl_file (fun _ => true) (fun _ => PTree.node [] "" ⟨0, 0⟩ ⟨0, 0⟩ [])
        emptyStoreDB ⟨"c.y", some "y", [195]⟩
        = Except.ok (Except.error CrawlError.ioFailure)
    ∧ crawl_path (fun _ => true) (fun _ => PTree.node [] "" ⟨0, 0⟩ ⟨0, 0⟩ [])
        emptyStoreDB [⟨"c.y", some "y", [195]⟩]
        = Except.ok (Except.error CrawlError.ioFailure) :=
  C8_non_utf8_errors (fun _ => true)
    (fun _ => PTree.node [] "" ⟨0, 0⟩ ⟨0, 0⟩ []) emptyStoreDB "c.y" "y"
    [195] [] rfl rfl

end TreeTags
